import Mathlib

/-
Verification of the Parsegen grammar-analysis core (`parsegen.py`).

The Python module is shallowly embedded: Python `dict`s become
insertion-ordered association lists, Python `set`s become `Finset String`,
in-place mutation becomes explicit state passing, and `raise` becomes
`Except ParsegenError`.  The unbounded `while changed:` fixpoint loop is
modelled with an explicit pass budget (`compute_fuel`), proved sufficient
below: the loop always reaches a pass that reports no change.
-/

namespace Parsegen

/-- Errors of the module: `ParseError` and `GrammarError` in the source,
each carrying the message string passed to the constructor. -/
inductive ParsegenError where
  | parseError (msg : String)
  | grammarError (msg : String)
deriving DecidableEq

/-- Formatted message, as assembled by `ParsegenError.__init__`
("parsegen: {error_name}: {string}"). -/
def ParsegenError.message : ParsegenError → String
  | .parseError s => "parsegen: parse error: " ++ s
  | .grammarError s => "parsegen: grammar error: " ++ s

/-- Insertion-ordered string dictionary, modelling a Python `dict` with
string keys and values. -/
abbrev StrDict := List (String × String)

/-- Python `k in d`. -/
def dictHasKey (d : StrDict) (k : String) : Bool :=
  d.any (fun p => p.1 = k)

/-- Python `d[k]`, as an `Option`. -/
def dictGet (d : StrDict) (k : String) : Option String :=
  (d.find? (fun p => p.1 = k)).map (fun p => p.2)

/-- Python `d.get(k, dflt)`. -/
def dictGetD (d : StrDict) (k dflt : String) : String :=
  (dictGet d k).getD dflt

/-- Python `d[k] = v`: overwrite in place if the key exists, else append. -/
def dictInsert (d : StrDict) (k v : String) : StrDict :=
  if dictHasKey d k then d.map (fun p => if p.1 = k then (k, v) else p)
  else d ++ [(k, v)]

/-- `Header`: the options and terminal-definition mappings of a grammar
file header. -/
structure Header where
  terminals : StrDict
  options : StrDict
deriving DecidableEq

/-- `Header.get_option` with a caller-supplied default (the Python default
argument `default=""` is passed explicitly at call sites). -/
def Header.get_option (h : Header) (option dflt : String) : String :=
  dictGetD h.options option dflt

/-- `Symbol`: the expansions of one nonterminal together with its
nullability flag and FIRST/FOLLOW sets. -/
structure Symbol where
  expansions : List (List String)
  nullable : Bool
  first : Finset String
  follow : Finset String
deriving DecidableEq

/-- `Symbol()`: fresh symbol with no expansions, not nullable, empty sets. -/
def Symbol.mkEmpty : Symbol := ⟨[], false, ∅, ∅⟩

/-- `Symbol.set_nullable`. -/
def Symbol.set_nullable (s : Symbol) : Symbol :=
  { s with nullable := true }

/-- `Symbol.add_expansion`: append the expansion; an empty expansion marks
the symbol nullable at once. -/
def Symbol.add_expansion (s : Symbol) (expansion : List String) : Symbol :=
  let s' := { s with expansions := s.expansions ++ [expansion] }
  if expansion.isEmpty then s'.set_nullable else s'

/-- `Symbol.is_nullable`: a symbol with no expansions is considered
nullable; otherwise the stored flag is returned. -/
def Symbol.is_nullable (s : Symbol) : Bool :=
  if s.expansions.length = 0 then true else s.nullable

/-- `Symbol.add_first`: set union into the FIRST set. -/
def Symbol.add_first (s : Symbol) (values : Finset String) : Symbol :=
  { s with first := s.first ∪ values }

/-- `Symbol.add_follow`: set union into the FOLLOW set. -/
def Symbol.add_follow (s : Symbol) (values : Finset String) : Symbol :=
  { s with follow := s.follow ∪ values }

/-- The dictionary of expansions: nonterminal name to `Symbol`, in
insertion order (a Python `dict`). -/
abbrev ExpMap := List (String × Symbol)

/-- Python `m[k]` on the expansions dict, as an `Option`. -/
def lookupSym (m : ExpMap) (k : String) : Option Symbol :=
  (m.find? (fun p => p.1 = k)).map (fun p => p.2)

/-- Python `k in m` on the expansions dict. -/
def mapHasKey (m : ExpMap) (k : String) : Bool :=
  m.any (fun p => p.1 = k)

/-- In-place update of the symbol stored under key `k` (object mutation in
the source). -/
def updateSym (m : ExpMap) (k : String) (s : Symbol) : ExpMap :=
  m.map (fun p => if p.1 = k then (k, s) else p)

/-- Python `m[k] = s`. -/
def insertSym (m : ExpMap) (k : String) (s : Symbol) : ExpMap :=
  if mapHasKey m k then updateSym m k s else m ++ [(k, s)]

/-- Whether `sep` is a prefix of the second list (auxiliary for the string
models below; all are structurally recursive so that concrete grammars
evaluate inside the kernel). -/
def isPrefixChars : List Char → List Char → Bool
  | [], _ => true
  | _ :: _, [] => false
  | a :: as, b :: bs => a = b && isPrefixChars as bs

/-- Python `str.split(sep)` over character lists, for a non-empty
separator: leftmost non-overlapping occurrences. `acc` holds the current
piece reversed; the fuel starts at the length of the input. -/
def splitSepChars (sep : List Char) : Nat → List Char → List Char → List (List Char)
  | _, acc, [] => [acc.reverse]
  | 0, acc, xs => [acc.reverse ++ xs]
  | fuel + 1, acc, x :: xs =>
    if isPrefixChars sep (x :: xs) then
      acc.reverse :: splitSepChars sep fuel [] ((x :: xs).drop sep.length)
    else
      splitSepChars sep fuel (x :: acc) xs

/-- Python `str.split(sep)` for a non-empty separator. -/
def pySplitOn (s sep : String) : List String :=
  if sep = "" then [s]
  else (splitSepChars sep.toList s.toList.length [] s.toList).map (fun cs => ⟨cs⟩)

/-- Scan for the leftmost occurrence of `sep`; returns the characters
before and after it, or `none` when `sep` does not occur. -/
def findSepChars (sep : List Char) : Nat → List Char → List Char →
    Option (List Char × List Char)
  | _, _, [] => none
  | 0, _, _ => none
  | fuel + 1, acc, x :: xs =>
    if isPrefixChars sep (x :: xs) then some (acc.reverse, (x :: xs).drop sep.length)
    else findSepChars sep fuel (x :: acc) xs

/-- Python `str.partition(sep)`: split at the first occurrence of `sep`,
or return the whole string with two empty parts. -/
def pyPartition (s sep : String) : String × String × String :=
  match findSepChars sep.toList s.toList.length [] s.toList with
  | some (a, b) => (⟨a⟩, sep, ⟨b⟩)
  | none => (s, "", "")

/-- Python `str.strip()`: whitespace removed from both ends. -/
def pyStrip (s : String) : String :=
  ⟨((s.toList.dropWhile Char.isWhitespace).reverse.dropWhile Char.isWhitespace).reverse⟩

/-- Python `str.split()` with no argument, over character lists: split on
whitespace runs, dropping empty pieces. -/
def pySplitWsChars : List Char → List Char → List (List Char)
  | acc, [] => if acc.isEmpty then [] else [acc.reverse]
  | acc, c :: cs =>
    if c.isWhitespace then
      if acc.isEmpty then pySplitWsChars [] cs
      else acc.reverse :: pySplitWsChars [] cs
    else pySplitWsChars (c :: acc) cs

/-- Python `str.split()` with no argument. -/
def pySplit (s : String) : List String :=
  (pySplitWsChars [] s.toList).map (fun cs => ⟨cs⟩)

/-- Python `s[:n]`. -/
def strTake (s : String) (n : Nat) : String := ⟨s.toList.take n⟩

/-- Python `s[n:]`. -/
def strDrop (s : String) (n : Nat) : String := ⟨s.toList.drop n⟩

/-- Python `sep.join(parts)`. -/
def strJoin (sep : String) : List String → String
  | [] => ""
  | [x] => x
  | x :: y :: xs => x ++ sep ++ strJoin sep (y :: xs)

/-- `_processed_lines`: all non-empty lines of the text, with `#` comments
removed and whitespace stripped. -/
def processed_lines (text : String) : List String :=
  (pySplitOn text "\n").filterMap (fun l =>
    let l1 := (pyPartition l "#").1
    let l2 := pyStrip l1
    if l2.length ≠ 0 then some l2 else none)

/-- `_kv_with_sep`: extract a key-value pair using the separator. -/
def kv_with_sep (opt_line sep : String) : String × String :=
  let p := pyPartition opt_line sep
  (pyStrip p.1, pyStrip p.2.2)

/-- `_add_opt_to_dict`: extract a `key = value` pair from the line and
store it in the dictionary. -/
def add_opt_to_dict (opt_line : String) (dict : StrDict) (sep : String) : StrDict :=
  let kv := kv_with_sep opt_line sep
  dictInsert dict kv.1 kv.2

/-- `_process_header`: split the header definitions into the terminal and
option dictionaries. -/
def process_header (header : String) : Header :=
  let r := (processed_lines header).foldl
    (fun (acc : StrDict × StrDict) l =>
      if strTake l 1 = "%" then (acc.1, add_opt_to_dict (strDrop l 1) acc.2 "=")
      else (add_opt_to_dict l acc.1 "=", acc.2))
    ([], [])
  ⟨r.1, r.2⟩

/-- `_process_expansions`: build the map from symbol names to `Symbol`
objects out of the rules text. -/
def process_expansions (expansions : String) : ExpMap :=
  (processed_lines expansions).foldl
    (fun exps l =>
      let se := kv_with_sep l ":="
      let s := (lookupSym exps se.1).getD Symbol.mkEmpty
      insertSym exps se.1 (s.add_expansion (pySplit se.2)))
    []

/-- Token check of `_initialise_expansions_state`: each referenced token
must be a terminal or a defined nonterminal. -/
def check_tokens (header : Header) (expansions : ExpMap) :
    List String → Except ParsegenError Unit
  | [] => .ok ()
  | e :: rest =>
    if dictHasKey header.terminals e || mapHasKey expansions e then
      check_tokens header expansions rest
    else .error (.grammarError (e ++ " is not defined as a terminal or nonterminal"))

/-- The seeding statement of `_initialise_expansions_state`: when the
expansion opens with a terminal, that terminal joins the FIRST set. -/
def seed_first (header : Header) (symbol : Symbol) (exp : List String) : Symbol :=
  match exp with
  | [] => symbol
  | e :: _ => if dictHasKey header.terminals e then symbol.add_first {e} else symbol

/-- Per-expansion step of `_initialise_expansions_state`: seed the FIRST
set when the expansion opens with a terminal, then check every token. -/
def init_expansion (header : Header) (expansions : ExpMap) (symbol : Symbol)
    (exp : List String) : Except ParsegenError Symbol := do
  let symbol := seed_first header symbol exp
  check_tokens header expansions exp
  return symbol

/-- Entry loop of `_initialise_expansions_state`: reject a production for a
terminal name, then process each expansion of the symbol. -/
def init_entries (header : Header) (expansions : ExpMap) :
    ExpMap → Except ParsegenError ExpMap
  | [] => .ok []
  | (name, symbol) :: rest =>
    if dictHasKey header.terminals name then
      .error (.grammarError ("expansion for nonterminal " ++ name))
    else do
      let symbol ← symbol.expansions.foldlM (init_expansion header expansions) symbol
      let rest ← init_entries header expansions rest
      return (name, symbol) :: rest

/-- `_initialise_expansions_state`. -/
def initialise_expansions_state (header : Header) (expansions : ExpMap) :
    Except ParsegenError ExpMap :=
  init_entries header expansions expansions

/-- Token scan of `_update_first_from_expansion`, threading the mutated
state and the changed flag exactly as the Python loop does (the `for`
loop's `else:` clause is the `[]` case). -/
def update_first_go (header : Header) (name : String) :
    ExpMap → Bool → List String → ExpMap × Bool
  | st, changed, [] =>
    let symbol := (lookupSym st name).getD Symbol.mkEmpty
    if symbol.is_nullable then (st, changed)
    else (updateSym st name symbol.set_nullable, true)
  | st, changed, e :: rest =>
    if dictHasKey header.terminals e then (st, changed)
    else
      match lookupSym st e with
      | none => (st, changed)
      | some other_sym =>
        let symbol := (lookupSym st name).getD Symbol.mkEmpty
        let stc :=
          if other_sym.first ⊆ symbol.first then (st, changed)
          else (updateSym st name (symbol.add_first other_sym.first), true)
        if other_sym.is_nullable then update_first_go header name stc.1 stc.2 rest
        else stc

/-- `_update_first_from_expansion`: returns the updated map and whether an
update was made. -/
def update_first_from_expansion (header : Header) (st : ExpMap) (name : String)
    (expansion : List String) : ExpMap × Bool :=
  update_first_go header name st false expansion

/-- `_update_follow_from_expansion`: unimplemented in the source
("TODO: implement follow sets"); always reports no change. -/
def update_follow_from_expansion (_header : Header) (_name : String)
    (_symbol : Symbol) (_expansion : List String) : Bool :=
  false

/-- `_each_expansion`: the (name, symbol, expansion) triples of the map. -/
def each_expansion (expansions : ExpMap) : List (String × Symbol × List String) :=
  expansions.flatMap (fun p => p.2.expansions.map (fun expansion => (p.1, p.2, expansion)))

/-- One iteration of the `while changed:` loop of
`_compute_sets_for_expansions`: run the FIRST and FOLLOW updates over every
(symbol, expansion) pair, or-ing the changed flags. -/
def compute_pass (header : Header) (st : ExpMap) : ExpMap × Bool :=
  (each_expansion st).foldl
    (fun acc t =>
      let r := update_first_from_expansion header acc.1 t.1 t.2.2
      let s := update_follow_from_expansion header t.1 t.2.1 t.2.2
      (r.1, acc.2 || (r.2 || s)))
    (st, false)

/-- The `while changed:` loop, with an explicit pass budget. -/
def compute_loop (header : Header) : Nat → ExpMap → ExpMap
  | 0, st => st
  | fuel + 1, st =>
    let p := compute_pass header st
    if p.2 then compute_loop header fuel p.1 else p.1

/-- All terminal names together with every name already present in some
FIRST set: an upper bound for FIRST sets throughout the fixpoint. -/
def first_universe (header : Header) (st : ExpMap) : Finset String :=
  st.foldl (fun acc p => acc ∪ p.2.first) ((header.terminals.map (fun p => p.1)).toFinset)

/-- Pass budget for the fixpoint loop; proved sufficient below. -/
def compute_fuel (header : Header) (st : ExpMap) : Nat :=
  st.length * ((first_universe header st).card + 1) + 1

/-- `_compute_sets_for_expansions`: validate, then iterate until a full
pass reports no change. -/
def compute_sets_for_expansions (header : Header) (expansions : ExpMap) :
    Except ParsegenError ExpMap := do
  let st ← initialise_expansions_state header expansions
  return compute_loop header (compute_fuel header st) st

/-- `parse_buffer`: split on the `%%` delimiter, process the header and the
expansions, compute the sets, and return the triple. -/
def parse_buffer (buffer : String) : Except ParsegenError (Header × ExpMap × String) :=
  match pySplitOn buffer "%%" with
  | [header, expansions, user_code] => do
    let header := process_header header
    let expansions := process_expansions expansions
    let expansions ← compute_sets_for_expansions header expansions
    return (header, expansions, user_code)
  | sects => .error (.parseError ("expected 3 sections but found " ++ toString sects.length))

instance instDecEqExcept {ε α : Type} [DecidableEq ε] [DecidableEq α] :
    DecidableEq (Except ε α)
  | .ok a, .ok b =>
    if h : a = b then isTrue (congrArg Except.ok h)
    else isFalse (fun hc => h (Except.ok.inj hc))
  | .error a, .error b =>
    if h : a = b then isTrue (congrArg Except.error h)
    else isFalse (fun hc => h (Except.error.inj hc))
  | .ok _, .error _ => isFalse (fun hc => Except.noConfusion hc)
  | .error _, .ok _ => isFalse (fun hc => Except.noConfusion hc)

/-- `_prefixed_default`: the string prefixed with the configured scope;
the Python `default=None` argument becomes an `Option`. -/
def prefixed_default (header : Header) (dflt : Option String) : String :=
  let pre := header.get_option "prefix" "yy"
  match dflt with
  | some d => pre ++ "_" ++ d
  | none => pre

/-- `_get_counts`: the largest number of nonterminal tokens in any single
expansion of the symbol. -/
def get_counts (header : Header) (symbol : Symbol) : Nat :=
  symbol.expansions.foldl
    (fun node_count expansion =>
      let n := (expansion.filter (fun e => ¬ dictHasKey header.terminals e)).length
      if node_count < n then n else node_count)
    0

/-- The `terms` computed by `_write_body_for_expansion`: the predicting
terminal set of a non-empty expansion — the head itself when it is a
terminal, otherwise the FIRST set of the head nonterminal. -/
def predict_terms (header : Header) (expansions : ExpMap) (expansion : List String) :
    Finset String :=
  match expansion with
  | [] => ∅
  | e :: _ =>
    if dictHasKey header.terminals e then {e}
    else ((lookupSym expansions e).getD Symbol.mkEmpty).first

/-- One token of the body loop of `_write_body_for_expansion`: the
accumulator carries the emitted write calls, the collected parameters and
the next node index. -/
def body_step (header : Header) (acc : List String × List String × Nat) (sym : String) :
    List String × List String × Nat :=
  if dictHasKey header.terminals sym then
    (acc.1 ++ ["\t\tif (!eat_terminal(" ++ dictGetD header.terminals sym "" ++
        "))\n\t\t\tgoto error;\n"],
     acc.2.1 ++ [dictGetD header.terminals sym ""], acc.2.2)
  else
    (acc.1 ++ ["\t\tnodes[" ++ toString acc.2.2 ++ "] = " ++ sym ++ "();\n"],
     acc.2.1 ++ ["nodes[" ++ toString acc.2.2 ++ "]"], acc.2.2 + 1)

/-- `_write_body_for_expansion`, modelled as the list of strings passed to
`file.write`: nothing at all for an empty expansion; otherwise one `case`
label per predicting terminal (the unspecified Python set-iteration order
is canonicalised by sorting), the matching/recursion steps, the user
action call, and the closing `break`. -/
def write_body_for_expansion (header : Header) (expansions : ExpMap) (name : String)
    (expansion : List String) : List String :=
  if expansion.isEmpty then []
  else
    let terms := predict_terms header expansions expansion
    let case_lines := (terms.sort (fun a b => a ≤ b)).map (fun term =>
      "\tcase " ++ dictGetD header.terminals term "" ++ ":\n")
    let r := expansion.foldl (body_step header) ([], [], 0)
    case_lines ++ r.1 ++
      ["\t\ttoken_action_" ++ name ++ "(" ++ strJoin ", " r.2.1 ++ ");\n",
       "\t\tbreak;\n\n"]

/-- `_write_symbol_function_begin`: the single formatted write call that
opens a symbol's dispatch function. -/
def write_symbol_function_begin (header : Header) (name : String) (symbol : Symbol) :
    List String :=
  let node_count := get_counts header symbol
  ["\nstatic " ++ prefixed_default header none ++ "_node_t* " ++ name ++
    "(void)\n\x7b\n\t" ++ prefixed_default header none ++ "_node_t* nodes[" ++
    toString node_count ++ "];\n\t" ++
    header.get_option "token_type" (prefixed_default header (some "token_t")) ++
    " token = " ++ prefixed_default header none ++
    "_peek_next_token();\n\t\n\tswitch (token) \x7b\n"]

/-- `_write_symbol_function_end`. -/
def write_symbol_function_end : List String :=
  ["\t\x7d\n\x7d\n"]

/-- The per-symbol slice of `_write_expansions_to_file`: function opening,
one body per expansion in declaration order, function closing. -/
def write_symbol_function (header : Header) (expansions : ExpMap) (name : String)
    (symbol : Symbol) : List String :=
  write_symbol_function_begin header name symbol ++
    symbol.expansions.flatMap (write_body_for_expansion header expansions name) ++
    write_symbol_function_end

/-! Auxiliary notions used by the theorems: a pointwise order capturing
monotone accumulation, a progress measure for the fixpoint, the stability
predicate of the `while` loop, and the derivation semantics of a grammar. -/

/-- Monotone-accumulation order on symbols: expansions and FOLLOW are
unchanged, FIRST only grows, nullability never reverts. -/
def SymbolLE (a b : Symbol) : Prop :=
  a.expansions = b.expansions ∧ a.follow = b.follow ∧ a.first ⊆ b.first ∧
    (a.nullable = true → b.nullable = true)

/-- Pointwise monotone-accumulation order on expansion maps. -/
def MapLE (s t : ExpMap) : Prop :=
  List.Forall₂ (fun p q => p.1 = q.1 ∧ SymbolLE p.2 q.2) s t

/-- Progress measure of one symbol: FIRST-set size plus the nullability
bit. -/
def symWeight (s : Symbol) : Nat :=
  s.first.card + (if s.nullable then 1 else 0)

/-- Progress measure of the whole map: strictly increases on every pass
that reports a change. -/
def mapWeight (st : ExpMap) : Nat :=
  (st.map (fun p => symWeight p.2)).sum

/-- A state on which a full pass reports no change: the exit condition of
the `while changed:` loop. -/
def Stable (header : Header) (st : ExpMap) : Prop :=
  (compute_pass header st).2 = false

/-- `n` full passes of the fixpoint loop. -/
def pass_iter (header : Header) : Nat → ExpMap → ExpMap
  | 0, st => st
  | n + 1, st => pass_iter header n (compute_pass header st).1

/-- The production rules of a map: each name with its expansion lists. -/
def gOf (st : ExpMap) : List (String × List (List String)) :=
  st.map (fun p => (p.1, p.2.expansions))

/-- Rule lookup. -/
def lookupG (g : List (String × List (List String))) (k : String) :
    Option (List (List String)) :=
  (g.find? (fun p => p.1 = k)).map (fun p => p.2)

/-- One derivation step on sentential forms: replace a nonterminal by one
of its expansions. -/
inductive Step (g : List (String × List (List String))) :
    List String → List String → Prop
  | expand (pre post : List String) (name : String) (l : List (List String))
      (exp : List String) : lookupG g name = some l → exp ∈ l →
      Step g (pre ++ name :: post) (pre ++ exp ++ post)

/-- Multi-step derivation. -/
def Derives (g : List (String × List (List String))) :
    List String → List String → Prop :=
  Relation.ReflTransGen (Step g)

/-- The terminal `t` can appear as the first token of some derivation of
`name`: the specification's reading of membership in FIRST. -/
def CanBegin (g : List (String × List (List String))) (name t : String) : Prop :=
  ∃ β, Derives g [name] (t :: β)

/-- Justification for the engine's nullability verdict on a token list:
every token is a nonterminal that the engine's own rule can mark nullable
(either it has an empty rule list or some expansion of it is again such a
list). -/
inductive NullStar (header : Header) (g : List (String × List (List String))) :
    List String → Prop
  | nil : NullStar header g []
  | consEmpty (e : String) (rest : List String) :
      dictHasKey header.terminals e = false → lookupG g e = some [] →
      NullStar header g rest → NullStar header g (e :: rest)
  | consDerived (e : String) (rest : List String) (l : List (List String))
      (exp : List String) :
      dictHasKey header.terminals e = false → lookupG g e = some l → exp ∈ l →
      NullStar header g exp → NullStar header g rest → NullStar header g (e :: rest)

/-- The engine's justified-nullable predicate for a symbol: some expansion
of it is a `NullStar` list. -/
def NullableJ (header : Header) (g : List (String × List (List String)))
    (name : String) : Prop :=
  ∃ l exp, lookupG g name = some l ∧ exp ∈ l ∧ NullStar header g exp

/-- Soundness invariant carried through the fixpoint: everything recorded
in a FIRST set is a terminal that can begin a derivation, and every
nullability flag is justified by a derivation of the empty form. -/
def SoundState (header : Header) (g : List (String × List (List String)))
    (st : ExpMap) : Prop :=
  ∀ k a, lookupSym st k = some a →
    (∀ t ∈ a.first, dictHasKey header.terminals t = true ∧ CanBegin g k t) ∧
    (a.nullable = true → Derives g [k] [])

/-- Justified-nullability invariant carried through the fixpoint. -/
def NullState (header : Header) (g : List (String × List (List String)))
    (st : ExpMap) : Prop :=
  ∀ k a, lookupSym st k = some a → a.nullable = true → NullableJ header g k

/-- No symbol of the map has an empty expansion list (true of every map the
symbol-table builder produces, since a `Symbol` is only ever created
together with its first expansion). -/
def NonEmptyExps (st : ExpMap) : Prop :=
  ∀ k a, lookupSym st k = some a → a.expansions ≠ []

/-- All FIRST sets lie below `U` (used to bound the progress measure). -/
def FirstsBounded (U : Finset String) (st : ExpMap) : Prop :=
  ∀ k a, lookupSym st k = some a → a.first ⊆ U

/-- Whether a result is a raised `ParseError`. -/
def is_parse_error {α : Type} : Except ParsegenError α → Bool
  | .error (.parseError _) => true
  | _ => false

/-- Whether a result is a raised `GrammarError`. -/
def is_grammar_error {α : Type} : Except ParsegenError α → Bool
  | .error (.grammarError _) => true
  | _ => false

/-! Concrete grammars used to exercise the pipeline end to end. -/

/-- A minimal grammar with one terminal and one production. -/
def w8_buffer : String := "T = tok\n%%\ns := T\n%%\nx"

def w8_header : Header := ⟨[("T", "tok")], []⟩

def w8_exps : ExpMap := [("s", ⟨[["T"]], false, {"T"}, ∅⟩)]

/-- A grammar whose single nonterminal has only the empty expansion. -/
def w4_buffer : String := "T = tok\n%%\na := \n%%\nx"

def w4_header : Header := ⟨[("T", "tok")], []⟩

def w4_exps : ExpMap := [("a", ⟨[[]], true, ∅, ∅⟩)]

/-- A grammar with a nullable nonterminal followed by a terminal: the
terminal `T` can begin a derivation of `s`, yet the engine records an
empty FIRST set for `s`. -/
def c1_buffer : String := "T = tok\n%%\na := \ns := a T\n%%\ncode"

def c1_header : Header := ⟨[("T", "tok")], []⟩

def c1_exps : ExpMap :=
  [("a", ⟨[[]], true, ∅, ∅⟩), ("s", ⟨[["a", "T"]], false, ∅, ∅⟩)]

def c1_g : List (String × List (List String)) := [("a", [[]]), ("s", [["a", "T"]])]

/-! Basic lemmas about the association-list model of Python dictionaries. -/

theorem lookupSym_cons (p : String × Symbol) (rest : ExpMap) (k : String) :
    lookupSym (p :: rest) k = if p.1 = k then some p.2 else lookupSym rest k := by
  by_cases h : p.1 = k
  · rw [if_pos h]
    unfold lookupSym
    rw [List.find?_cons_of_pos _ (by simpa using h)]
    rfl
  · rw [if_neg h]
    unfold lookupSym
    rw [List.find?_cons_of_neg _ (by simpa using h)]

theorem mapHasKey_cons (p : String × Symbol) (rest : ExpMap) (k : String) :
    mapHasKey (p :: rest) k = (decide (p.1 = k) || mapHasKey rest k) := rfl

theorem updateSym_cons (p : String × Symbol) (rest : ExpMap) (k : String) (s : Symbol) :
    updateSym (p :: rest) k s =
      (if p.1 = k then (k, s) else p) :: updateSym rest k s := rfl

theorem mapHasKey_iff_mem_keys (m : ExpMap) (k : String) :
    mapHasKey m k = true ↔ k ∈ m.map Prod.fst := by
  induction m with
  | nil => simp [mapHasKey]
  | cons p rest ih =>
    rw [mapHasKey_cons]
    by_cases h : p.1 = k
    · simp [h]
    · rw [decide_eq_false h, Bool.false_or]
      simp only [List.map_cons, List.mem_cons, ih]
      exact ⟨fun hm => Or.inr hm, fun hm => hm.elim (fun he => absurd he.symm h) id⟩

theorem lookupSym_eq_none_iff (m : ExpMap) (k : String) :
    lookupSym m k = none ↔ mapHasKey m k = false := by
  induction m with
  | nil => simp [lookupSym, mapHasKey]
  | cons p rest ih =>
    rw [lookupSym_cons, mapHasKey_cons]
    by_cases h : p.1 = k
    · simp [h]
    · simp [h, ih]

theorem lookupSym_isSome_of_hasKey (m : ExpMap) (k : String)
    (h : mapHasKey m k = true) : ∃ a, lookupSym m k = some a := by
  rcases ho : lookupSym m k with _ | a
  · rw [lookupSym_eq_none_iff, h] at ho; cases ho
  · exact ⟨a, rfl⟩

theorem lookupSym_mem (m : ExpMap) (k : String) (a : Symbol)
    (h : lookupSym m k = some a) : (k, a) ∈ m := by
  induction m with
  | nil => cases h
  | cons p rest ih =>
    rw [lookupSym_cons] at h
    by_cases hk : p.1 = k
    · rw [if_pos hk] at h
      cases h
      have : p = (k, p.2) := by
        cases p; cases hk; rfl
      rw [← this]
      exact List.mem_cons_self p rest
    · rw [if_neg hk] at h
      exact List.mem_cons_of_mem p (ih h)

theorem mem_lookupSym (m : ExpMap) (hnd : (m.map Prod.fst).Nodup) (k : String)
    (a : Symbol) (h : (k, a) ∈ m) : lookupSym m k = some a := by
  induction m with
  | nil => cases h
  | cons p rest ih =>
    rw [lookupSym_cons]
    rcases List.mem_cons.1 h with rfl | hmem
    · rw [if_pos rfl]
    · have hk : p.1 ≠ k := by
        intro hk
        exact (List.nodup_cons.1 hnd).1 (hk ▸ (List.mem_map.2 ⟨(k, a), hmem, rfl⟩))
      rw [if_neg hk]
      exact ih (List.nodup_cons.1 hnd).2 hmem

theorem updateSym_keys (m : ExpMap) (k : String) (s : Symbol) :
    (updateSym m k s).map Prod.fst = m.map Prod.fst := by
  induction m with
  | nil => rfl
  | cons p rest ih =>
    rw [updateSym_cons]
    by_cases h : p.1 = k
    · rw [if_pos h]
      simp only [List.map_cons, ih, h]
    · rw [if_neg h]
      simp only [List.map_cons, ih]

theorem updateSym_eq_of_not_hasKey (m : ExpMap) (k : String) (s : Symbol)
    (h : mapHasKey m k = false) : updateSym m k s = m := by
  induction m with
  | nil => rfl
  | cons p rest ih =>
    rw [mapHasKey_cons, Bool.or_eq_false_iff] at h
    rw [updateSym_cons, if_neg (by simpa using h.1), ih h.2]

theorem lookupSym_updateSym_self (m : ExpMap) (k : String) (s : Symbol) :
    lookupSym (updateSym m k s) k =
      if mapHasKey m k = true then some s else none := by
  induction m with
  | nil => rfl
  | cons p rest ih =>
    rw [updateSym_cons, lookupSym_cons, mapHasKey_cons]
    by_cases h : p.1 = k
    · rw [if_pos h]
      simp [h]
    · rw [if_neg h]
      rw [if_neg h]
      rw [ih, decide_eq_false h, Bool.false_or]

theorem lookupSym_updateSym_ne (m : ExpMap) (k j : String) (s : Symbol)
    (h : j ≠ k) : lookupSym (updateSym m k s) j = lookupSym m j := by
  induction m with
  | nil => rfl
  | cons p rest ih =>
    rw [updateSym_cons, lookupSym_cons, lookupSym_cons]
    by_cases hp : p.1 = k
    · rw [if_pos hp]
      have h1 : ((k, s) : String × Symbol).1 ≠ j := fun hc => h hc.symm
      have h2 : p.1 ≠ j := by rw [hp]; exact fun hc => h hc.symm
      rw [if_neg h1, if_neg h2, ih]
    · rw [if_neg hp]
      by_cases hpj : p.1 = j
      · rw [if_pos hpj, if_pos hpj]
      · rw [if_neg hpj, if_neg hpj, ih]

theorem lookupG_gOf (st : ExpMap) (k : String) :
    lookupG (gOf st) k = (lookupSym st k).map (fun s => s.expansions) := by
  induction st with
  | nil => rfl
  | cons p rest ih =>
    rw [lookupSym_cons]
    by_cases h : p.1 = k
    · simp only [lookupG, gOf, List.map_cons]
      rw [List.find?_cons_of_pos _ (by simpa using h), if_pos h]
      rfl
    · simp only [lookupG, gOf, List.map_cons] at ih ⊢
      rw [List.find?_cons_of_neg _ (by simpa using h), if_neg h]
      exact ih

/-! Lemmas about the monotone-accumulation order and the progress
measure. -/

theorem symbolLE_refl (a : Symbol) : SymbolLE a a :=
  ⟨rfl, rfl, Finset.Subset.refl _, fun h => h⟩

theorem symbolLE_trans {a b c : Symbol} (h1 : SymbolLE a b) (h2 : SymbolLE b c) :
    SymbolLE a c :=
  ⟨h1.1.trans h2.1, h1.2.1.trans h2.2.1, h1.2.2.1.trans h2.2.2.1,
    fun h => h2.2.2.2 (h1.2.2.2 h)⟩

theorem mapLE_refl (s : ExpMap) : MapLE s s :=
  List.forall₂_same.2 (fun p _ => ⟨rfl, symbolLE_refl p.2⟩)

theorem mapLE_trans {s t u : ExpMap} (h1 : MapLE s t) (h2 : MapLE t u) :
    MapLE s u := by
  induction h1 generalizing u with
  | nil => cases h2; exact List.Forall₂.nil
  | cons hpq _ ih =>
    cases h2 with
    | cons hqr hrest =>
      exact List.Forall₂.cons ⟨hpq.1.trans hqr.1, symbolLE_trans hpq.2 hqr.2⟩ (ih hrest)

theorem MapLE.keys_eq {s t : ExpMap} (h : MapLE s t) :
    s.map Prod.fst = t.map Prod.fst := by
  induction h with
  | nil => rfl
  | cons hpq _ ih => simp [hpq.1, ih]

theorem MapLE.lookup {s t : ExpMap} (h : MapLE s t) (k : String) (a : Symbol)
    (ha : lookupSym s k = some a) :
    ∃ b, lookupSym t k = some b ∧ SymbolLE a b := by
  induction h with
  | nil => cases ha
  | cons hpq hrest ih =>
    rename_i p q ps qs
    rw [lookupSym_cons] at ha
    by_cases hk : p.1 = k
    · rw [if_pos hk] at ha
      cases ha
      have hq : q.1 = k := hpq.1 ▸ hk
      exact ⟨q.2, by rw [lookupSym_cons, if_pos hq], hpq.2⟩
    · have hq : q.1 ≠ k := fun hc => hk (hpq.1 ▸ hc)
      rw [if_neg hk] at ha
      rw [lookupSym_cons, if_neg hq]
      exact ih ha

theorem mapLE_updateSym (m : ExpMap) (hnd : (m.map Prod.fst).Nodup) (k : String)
    (a b : Symbol) (hl : lookupSym m k = some a) (hab : SymbolLE a b) :
    MapLE m (updateSym m k b) := by
  induction m with
  | nil => cases hl
  | cons p rest ih =>
    rw [lookupSym_cons] at hl
    rw [updateSym_cons]
    by_cases hk : p.1 = k
    · rw [if_pos hk] at hl
      cases hl
      rw [if_pos hk]
      refine List.Forall₂.cons ⟨hk, hab⟩ ?_
      have hnk : mapHasKey rest k = false := by
        rcases hHK : mapHasKey rest k with _ | _
        · rfl
        · exact absurd (hk ▸ (mapHasKey_iff_mem_keys rest k).1 hHK)
            (List.nodup_cons.1 hnd).1
      rw [updateSym_eq_of_not_hasKey rest k b hnk]
      exact mapLE_refl rest
    · rw [if_neg hk] at hl
      rw [if_neg hk]
      exact List.Forall₂.cons ⟨rfl, symbolLE_refl p.2⟩
        (ih (List.nodup_cons.1 hnd).2 hl)

theorem symWeight_le {a b : Symbol} (hab : SymbolLE a b) :
    symWeight a ≤ symWeight b := by
  have hc := Finset.card_le_card hab.2.2.1
  have hn := hab.2.2.2
  simp only [symWeight]
  split_ifs with h1 h2
  · omega
  · exact absurd (hn h1) h2
  · omega
  · omega

theorem mapWeight_le_of_mapLE {s t : ExpMap} (h : MapLE s t) :
    mapWeight s ≤ mapWeight t := by
  induction h with
  | nil => exact Nat.le.refl
  | cons hpq _ ih =>
    simp only [mapWeight, List.map_cons, List.sum_cons] at ih ⊢
    exact Nat.add_le_add (symWeight_le hpq.2) ih

theorem mapWeight_lt {s t : ExpMap} (h : MapLE s t) (k : String) (a b : Symbol)
    (ha : lookupSym s k = some a) (hb : lookupSym t k = some b)
    (hw : symWeight a < symWeight b) : mapWeight s < mapWeight t := by
  induction h with
  | nil => cases ha
  | cons hpq hrest ih =>
    rename_i p q ps qs
    rw [lookupSym_cons] at ha hb
    by_cases hk : p.1 = k
    · have hq : q.1 = k := hpq.1 ▸ hk
      rw [if_pos hk] at ha
      rw [if_pos hq] at hb
      cases ha; cases hb
      simp only [mapWeight, List.map_cons, List.sum_cons]
      have := mapWeight_le_of_mapLE hrest
      simp only [mapWeight] at this
      omega
    · have hq : q.1 ≠ k := fun hc => hk (hpq.1 ▸ hc)
      rw [if_neg hk] at ha
      rw [if_neg hq] at hb
      simp only [mapWeight, List.map_cons, List.sum_cons]
      have h1 := symWeight_le hpq.2
      have h2 := ih ha hb
      simp only [mapWeight] at h2
      omega

theorem SymbolLE.set_nullable (a : Symbol) : SymbolLE a a.set_nullable :=
  ⟨rfl, rfl, Finset.Subset.refl _, fun _ => rfl⟩

theorem SymbolLE.add_first (a : Symbol) (v : Finset String) :
    SymbolLE a (a.add_first v) :=
  ⟨rfl, rfl, Finset.subset_union_left, fun h => h⟩

theorem symWeight_lt_add_first {a : Symbol} {v : Finset String}
    (h : ¬ v ⊆ a.first) : symWeight a < symWeight (a.add_first v) := by
  have hss : a.first ⊂ a.first ∪ v := by
    refine ⟨Finset.subset_union_left, fun hsub => h ?_⟩
    exact fun x hx => hsub (Finset.mem_union_right _ hx)
  have hc := Finset.card_lt_card hss
  simp only [symWeight, Symbol.add_first]
  omega

theorem symWeight_lt_set_nullable {a : Symbol} (h : a.nullable = false) :
    symWeight a < symWeight a.set_nullable := by
  simp [symWeight, Symbol.set_nullable, h]

theorem nullable_eq_false_of_is_nullable_false {a : Symbol}
    (h : a.is_nullable = false) : a.nullable = false := by
  unfold Symbol.is_nullable at h
  by_cases hl : a.expansions.length = 0
  · rw [if_pos hl] at h; cases h
  · rwa [if_neg hl] at h

theorem expansions_ne_nil_of_is_nullable_false {a : Symbol}
    (h : a.is_nullable = false) : a.expansions ≠ [] := by
  unfold Symbol.is_nullable at h
  by_cases hl : a.expansions.length = 0
  · rw [if_pos hl] at h; cases h
  · exact fun hc => hl (by rw [hc]; rfl)

theorem update_first_go_nil (header : Header) (name : String) (st : ExpMap)
    (changed : Bool) :
    update_first_go header name st changed [] =
      (if ((lookupSym st name).getD Symbol.mkEmpty).is_nullable then (st, changed)
       else (updateSym st name ((lookupSym st name).getD Symbol.mkEmpty).set_nullable,
             true)) := rfl

theorem update_first_go_cons (header : Header) (name : String) (st : ExpMap)
    (changed : Bool) (e : String) (rest : List String) :
    update_first_go header name st changed (e :: rest) =
      (if dictHasKey header.terminals e then (st, changed)
       else
         match lookupSym st e with
         | none => (st, changed)
         | some other_sym =>
           let symbol := (lookupSym st name).getD Symbol.mkEmpty
           let stc :=
             if other_sym.first ⊆ symbol.first then (st, changed)
             else (updateSym st name (symbol.add_first other_sym.first), true)
           if other_sym.is_nullable then update_first_go header name stc.1 stc.2 rest
           else stc) := rfl

/-- Behaviour of one token scan: the state only grows (monotone
accumulation), a `false` change flag means the state was left untouched,
a `true` change flag out of a clean scan means strict measure progress, the
flag is monotone, and FIRST sets stay bounded. -/
theorem update_first_go_spec (header : Header) (name : String) :
    ∀ (exp : List String) (st : ExpMap) (changed : Bool),
      (st.map Prod.fst).Nodup → mapHasKey st name = true →
      MapLE st (update_first_go header name st changed exp).1 ∧
      ((update_first_go header name st changed exp).2 = false →
        (update_first_go header name st changed exp).1 = st ∧ changed = false) ∧
      (changed = false → (update_first_go header name st changed exp).2 = true →
        mapWeight st < mapWeight (update_first_go header name st changed exp).1) ∧
      (changed = true → (update_first_go header name st changed exp).2 = true) ∧
      (∀ U, FirstsBounded U st → FirstsBounded U (update_first_go header name st changed exp).1)
  | [], st, changed, hnd, hname => by
    rw [update_first_go_nil]
    by_cases hn : ((lookupSym st name).getD Symbol.mkEmpty).is_nullable = true
    · rw [if_pos hn]
      refine ⟨mapLE_refl st, fun h => ⟨rfl, h⟩, ?_, fun h => h, fun U hU => hU⟩
      intro hc ht; rw [hc] at ht; cases ht
    · rw [if_neg hn]
      obtain ⟨a, ha⟩ := lookupSym_isSome_of_hasKey st name hname
      rw [ha] at hn ⊢
      simp only [Option.getD_some] at hn ⊢
      have hnf : a.is_nullable = false := by
        rcases h : a.is_nullable with _ | _
        · rfl
        · exact absurd h hn
      have hnl : a.nullable = false := nullable_eq_false_of_is_nullable_false hnf
      have hle : MapLE st (updateSym st name a.set_nullable) :=
        mapLE_updateSym st hnd name a a.set_nullable ha (SymbolLE.set_nullable a)
      have hup : lookupSym (updateSym st name a.set_nullable) name = some a.set_nullable := by
        rw [lookupSym_updateSym_self, if_pos hname]
      refine ⟨hle, ?_, ?_, fun _ => True.intro, ?_⟩
      · intro h
        exact Bool.noConfusion h
      · intro _ _
        exact mapWeight_lt hle name a a.set_nullable ha hup (symWeight_lt_set_nullable hnl)
      · intro U hU k b hb
        by_cases hk : k = name
        · rw [hk, hup] at hb
          cases hb
          exact hU name a ha
        · rw [lookupSym_updateSym_ne st name k a.set_nullable hk] at hb
          exact hU k b hb
  | e :: rest, st, changed, hnd, hname => by
    rw [update_first_go_cons]
    by_cases ht : dictHasKey header.terminals e = true
    · rw [if_pos ht]
      refine ⟨mapLE_refl st, fun h => ⟨rfl, h⟩, ?_, fun h => h, fun U hU => hU⟩
      intro hc h2; rw [hc] at h2; cases h2
    · rw [if_neg ht]
      rcases hlo : lookupSym st e with _ | o
      · dsimp only
        refine ⟨mapLE_refl st, fun h => ⟨rfl, h⟩, ?_, fun h => h, fun U hU => hU⟩
        intro hc h2; rw [hc] at h2; cases h2
      · dsimp only
        obtain ⟨a, ha⟩ := lookupSym_isSome_of_hasKey st name hname
        rw [ha]
        simp only [Option.getD_some]
        by_cases hsub : o.first ⊆ a.first
        · rw [if_pos hsub]
          by_cases hn : o.is_nullable = true
          · rw [if_pos hn]
            exact update_first_go_spec header name rest st changed hnd hname
          · rw [if_neg hn]
            refine ⟨mapLE_refl st, fun h => ⟨rfl, h⟩, ?_, fun h => h, fun U hU => hU⟩
            intro hc h2; rw [hc] at h2; cases h2
        · rw [if_neg hsub]
          have hle₁ : MapLE st (updateSym st name (a.add_first o.first)) :=
            mapLE_updateSym st hnd name a (a.add_first o.first) ha (SymbolLE.add_first a o.first)
          have hkeys₁ : (updateSym st name (a.add_first o.first)).map Prod.fst =
              st.map Prod.fst := updateSym_keys st name _
          have hnd₁ : ((updateSym st name (a.add_first o.first)).map Prod.fst).Nodup := by
            rw [hkeys₁]; exact hnd
          have hname₁ : mapHasKey (updateSym st name (a.add_first o.first)) name = true := by
            rw [mapHasKey_iff_mem_keys, hkeys₁, ← mapHasKey_iff_mem_keys]
            exact hname
          have hup : lookupSym (updateSym st name (a.add_first o.first)) name =
              some (a.add_first o.first) := by
            rw [lookupSym_updateSym_self, if_pos hname]
          have hwlt : mapWeight st < mapWeight (updateSym st name (a.add_first o.first)) :=
            mapWeight_lt hle₁ name a (a.add_first o.first) ha hup (symWeight_lt_add_first hsub)
          have hbnd : ∀ U, FirstsBounded U st →
              FirstsBounded U (updateSym st name (a.add_first o.first)) := by
            intro U hU k b hb
            by_cases hk : k = name
            · rw [hk, hup] at hb
              cases hb
              exact Finset.union_subset (hU name a ha) (hU e o hlo)
            · rw [lookupSym_updateSym_ne st name k _ hk] at hb
              exact hU k b hb
          by_cases hn : o.is_nullable = true
          · rw [if_pos hn]
            dsimp only
            obtain ⟨ih1, ih2, ih3, ih4, ih5⟩ :=
              update_first_go_spec header name rest
                (updateSym st name (a.add_first o.first)) true hnd₁ hname₁
            refine ⟨mapLE_trans hle₁ ih1, ?_, ?_, fun _ => ih4 rfl, fun U hU => ih5 U (hbnd U hU)⟩
            · intro h
              rw [ih4 rfl] at h; cases h
            · intro _ _
              exact hwlt.trans_le (mapWeight_le_of_mapLE ih1)
          · rw [if_neg hn]
            refine ⟨hle₁, ?_, fun _ _ => hwlt, fun _ => rfl, hbnd⟩
            intro h
            exact Bool.noConfusion h

theorem mem_each_expansion {st : ExpMap} {t : String × Symbol × List String}
    (h : t ∈ each_expansion st) :
    ∃ p ∈ st, t.1 = p.1 ∧ t.2.1 = p.2 ∧ t.2.2 ∈ p.2.expansions := by
  simp only [each_expansion, List.mem_flatMap, List.mem_map] at h
  obtain ⟨p, hp, exp, hexp, rfl⟩ := h
  exact ⟨p, hp, rfl, rfl, hexp⟩

theorem each_expansion_of_mem {st : ExpMap} {p : String × Symbol}
    {exp : List String} (hp : p ∈ st) (hexp : exp ∈ p.2.expansions) :
    (p.1, p.2, exp) ∈ each_expansion st := by
  simp only [each_expansion, List.mem_flatMap, List.mem_map]
  exact ⟨p, hp, exp, hexp, rfl⟩

/-- Behaviour of the fold inside one `while` pass, generalized over the
list of (name, symbol, expansion) work items and the accumulator. -/
theorem pass_fold_spec (header : Header) :
    ∀ (l : List (String × Symbol × List String)) (A : ExpMap) (flag : Bool),
      (A.map Prod.fst).Nodup →
      (∀ t ∈ l, mapHasKey A t.1 = true) →
      MapLE A (l.foldl (fun acc t =>
          let r := update_first_from_expansion header acc.1 t.1 t.2.2
          let s := update_follow_from_expansion header t.1 t.2.1 t.2.2
          (r.1, acc.2 || (r.2 || s))) (A, flag)).1 ∧
      ((l.foldl (fun acc t =>
          let r := update_first_from_expansion header acc.1 t.1 t.2.2
          let s := update_follow_from_expansion header t.1 t.2.1 t.2.2
          (r.1, acc.2 || (r.2 || s))) (A, flag)).2 = false →
        (l.foldl (fun acc t =>
          let r := update_first_from_expansion header acc.1 t.1 t.2.2
          let s := update_follow_from_expansion header t.1 t.2.1 t.2.2
          (r.1, acc.2 || (r.2 || s))) (A, flag)).1 = A ∧ flag = false) ∧
      (flag = false → (l.foldl (fun acc t =>
          let r := update_first_from_expansion header acc.1 t.1 t.2.2
          let s := update_follow_from_expansion header t.1 t.2.1 t.2.2
          (r.1, acc.2 || (r.2 || s))) (A, flag)).2 = true →
        mapWeight A < mapWeight (l.foldl (fun acc t =>
          let r := update_first_from_expansion header acc.1 t.1 t.2.2
          let s := update_follow_from_expansion header t.1 t.2.1 t.2.2
          (r.1, acc.2 || (r.2 || s))) (A, flag)).1) ∧
      (flag = true → (l.foldl (fun acc t =>
          let r := update_first_from_expansion header acc.1 t.1 t.2.2
          let s := update_follow_from_expansion header t.1 t.2.1 t.2.2
          (r.1, acc.2 || (r.2 || s))) (A, flag)).2 = true) ∧
      (∀ U, FirstsBounded U A → FirstsBounded U (l.foldl (fun acc t =>
          let r := update_first_from_expansion header acc.1 t.1 t.2.2
          let s := update_follow_from_expansion header t.1 t.2.1 t.2.2
          (r.1, acc.2 || (r.2 || s))) (A, flag)).1)
  | [], A, flag, _, _ => by
    refine ⟨mapLE_refl A, fun h => ⟨rfl, h⟩, ?_, fun h => h, fun U hU => hU⟩
    intro hc h2; rw [hc] at h2; cases h2
  | t :: ts, A, flag, hnd, hkeys => by
    rw [List.foldl_cons]
    have hstep : (let r := update_first_from_expansion header (A, flag).1 t.1 t.2.2
        let s := update_follow_from_expansion header t.1 t.2.1 t.2.2
        ((r.1, (A, flag).2 || (r.2 || s)) : ExpMap × Bool)) =
        ((update_first_go header t.1 A false t.2.2).1,
          flag || (update_first_go header t.1 A false t.2.2).2) := by
      simp only [update_first_from_expansion, update_follow_from_expansion, Bool.or_false]
    rw [hstep]
    obtain ⟨g1, g2, g3, _, g5⟩ :=
      update_first_go_spec header t.1 t.2.2 A false hnd (hkeys t (List.mem_cons_self t ts))
    have hkeq : A.map Prod.fst = (update_first_go header t.1 A false t.2.2).1.map Prod.fst :=
      g1.keys_eq
    have hnd₁ : ((update_first_go header t.1 A false t.2.2).1.map Prod.fst).Nodup := by
      rw [← hkeq]; exact hnd
    have hkeys₁ : ∀ u ∈ ts, mapHasKey (update_first_go header t.1 A false t.2.2).1 u.1 = true := by
      intro u hu
      rw [mapHasKey_iff_mem_keys, ← hkeq, ← mapHasKey_iff_mem_keys]
      exact hkeys u (List.mem_cons_of_mem t hu)
    obtain ⟨ih1, ih2, ih3, ih4, ih5⟩ :=
      pass_fold_spec header ts (update_first_go header t.1 A false t.2.2).1
        (flag || (update_first_go header t.1 A false t.2.2).2) hnd₁ hkeys₁
    refine ⟨mapLE_trans g1 ih1, ?_, ?_, ?_, fun U hU => ih5 U (g5 U hU)⟩
    · intro h
      obtain ⟨hR, hf⟩ := ih2 h
      rw [Bool.or_eq_false_iff] at hf
      obtain ⟨hflag, hr2⟩ := hf
      obtain ⟨hA, _⟩ := g2 hr2
      exact ⟨by rw [hR, hA], hflag⟩
    · intro hflag hR2
      rcases Bool.eq_false_or_eq_true (update_first_go header t.1 A false t.2.2).2
        with hr2 | hr2
      · have h1 := g3 rfl hr2
        exact h1.trans_le (mapWeight_le_of_mapLE ih1)
      · obtain ⟨hA, _⟩ := g2 hr2
        have hflag₁ : (flag || (update_first_go header t.1 A false t.2.2).2) = false := by
          rw [hflag, hr2]; rfl
        have hw : mapWeight A = mapWeight (update_first_go header t.1 A false t.2.2).1 := by
          rw [hA]
        rw [hw]
        exact ih3 hflag₁ hR2
    · intro hflag
      have : (flag || (update_first_go header t.1 A false t.2.2).2) = true := by
        rw [hflag]; rfl
      exact ih4 this

/-- Behaviour of one full pass: the state grows, a clean pass leaves the
state untouched, a changing pass makes strict measure progress, and FIRST
sets stay bounded. -/
theorem compute_pass_spec (header : Header) (st : ExpMap)
    (hnd : (st.map Prod.fst).Nodup) :
    MapLE st (compute_pass header st).1 ∧
    ((compute_pass header st).2 = false → (compute_pass header st).1 = st) ∧
    ((compute_pass header st).2 = true →
      mapWeight st < mapWeight (compute_pass header st).1) ∧
    (∀ U, FirstsBounded U st → FirstsBounded U (compute_pass header st).1) := by
  have hkeys : ∀ t ∈ each_expansion st, mapHasKey st t.1 = true := by
    intro t ht
    obtain ⟨p, hp, h1, _, _⟩ := mem_each_expansion ht
    rw [mapHasKey_iff_mem_keys, h1]
    exact List.mem_map.2 ⟨p, hp, rfl⟩
  obtain ⟨h1, h2, h3, _, h5⟩ :=
    pass_fold_spec header (each_expansion st) st false hnd hkeys
  exact ⟨h1, fun h => (h2 h).1, h3 rfl, h5⟩

theorem compute_loop_succ (header : Header) (fuel : Nat) (st : ExpMap) :
    compute_loop header (fuel + 1) st =
      (if (compute_pass header st).2 then
        compute_loop header fuel (compute_pass header st).1
       else (compute_pass header st).1) := rfl

theorem compute_loop_mapLE (header : Header) :
    ∀ (fuel : Nat) (st : ExpMap), (st.map Prod.fst).Nodup →
      MapLE st (compute_loop header fuel st)
  | 0, st, _ => mapLE_refl st
  | fuel + 1, st, hnd => by
    rw [compute_loop_succ]
    obtain ⟨p1, p2, _, _⟩ := compute_pass_spec header st hnd
    by_cases hc : (compute_pass header st).2 = true
    · rw [if_pos hc]
      have hnd' : ((compute_pass header st).1.map Prod.fst).Nodup := by
        rw [← p1.keys_eq]; exact hnd
      exact mapLE_trans p1 (compute_loop_mapLE header fuel (compute_pass header st).1 hnd')
    · rw [if_neg hc]
      exact p1

theorem mapWeight_le_bound (U : Finset String) :
    ∀ (st : ExpMap), (st.map Prod.fst).Nodup → FirstsBounded U st →
      mapWeight st ≤ st.length * (U.card + 1)
  | [], _, _ => Nat.zero_le _
  | p :: rest, hnd, hb => by
    have hhead : lookupSym (p :: rest) p.1 = some p.2 := by
      rw [lookupSym_cons, if_pos rfl]
    have h1 : p.2.first.card ≤ U.card := Finset.card_le_card (hb p.1 p.2 hhead)
    have hbr : FirstsBounded U rest := by
      intro k a ha
      have hk : p.1 ≠ k := by
        intro hc
        have hmem := lookupSym_mem rest k a ha
        exact (List.nodup_cons.1 hnd).1 (hc ▸ List.mem_map.2 ⟨(k, a), hmem, rfl⟩)
      apply hb k a
      rw [lookupSym_cons, if_neg hk]
      exact ha
    have h2 := mapWeight_le_bound U rest (List.nodup_cons.1 hnd).2 hbr
    simp only [mapWeight, List.map_cons, List.sum_cons, List.length_cons, Nat.succ_mul]
    simp only [mapWeight] at h2
    have h3 : symWeight p.2 ≤ U.card + 1 := by
      simp only [symWeight]
      split_ifs <;> omega
    omega

theorem compute_loop_stable (header : Header) (U : Finset String) :
    ∀ (fuel : Nat) (st : ExpMap), (st.map Prod.fst).Nodup → FirstsBounded U st →
      st.length * (U.card + 1) + 1 ≤ fuel + mapWeight st →
      Stable header (compute_loop header fuel st)
  | 0, st, hnd, hb, hf => by
    exfalso
    have := mapWeight_le_bound U st hnd hb
    omega
  | fuel + 1, st, hnd, hb, hf => by
    rw [compute_loop_succ]
    obtain ⟨p1, p2, p3, p4⟩ := compute_pass_spec header st hnd
    by_cases hc : (compute_pass header st).2 = true
    · rw [if_pos hc]
      have hlt := p3 hc
      have hnd' : ((compute_pass header st).1.map Prod.fst).Nodup := by
        rw [← p1.keys_eq]; exact hnd
      have hlen : (compute_pass header st).1.length = st.length := by
        have := congrArg List.length p1.keys_eq
        simpa using this.symm
      apply compute_loop_stable header U fuel (compute_pass header st).1 hnd' (p4 U hb)
      rw [hlen]
      omega
    · rw [if_neg hc]
      have hc' : (compute_pass header st).2 = false := by
        rcases Bool.eq_false_or_eq_true (compute_pass header st).2 with h | h
        · exact absurd h hc
        · exact h
      unfold Stable
      rw [p2 hc']
      exact hc'

theorem pass_iter_succ (header : Header) (n : Nat) (st : ExpMap) :
    pass_iter header (n + 1) st = pass_iter header n (compute_pass header st).1 := rfl

theorem pass_iter_reaches (header : Header) (U : Finset String) :
    ∀ (fuel : Nat) (st : ExpMap), (st.map Prod.fst).Nodup → FirstsBounded U st →
      st.length * (U.card + 1) + 1 ≤ fuel + mapWeight st →
      ∃ n, Stable header (pass_iter header n st)
  | 0, st, hnd, hb, hf => by
    exfalso
    have := mapWeight_le_bound U st hnd hb
    omega
  | fuel + 1, st, hnd, hb, hf => by
    obtain ⟨p1, p2, p3, p4⟩ := compute_pass_spec header st hnd
    by_cases hc : (compute_pass header st).2 = true
    · have hlt := p3 hc
      have hnd' : ((compute_pass header st).1.map Prod.fst).Nodup := by
        rw [← p1.keys_eq]; exact hnd
      have hlen : (compute_pass header st).1.length = st.length := by
        have := congrArg List.length p1.keys_eq
        simpa using this.symm
      obtain ⟨n, hn⟩ := pass_iter_reaches header U fuel (compute_pass header st).1
        hnd' (p4 U hb) (by rw [hlen]; omega)
      exact ⟨n + 1, by rw [pass_iter_succ]; exact hn⟩
    · refine ⟨0, ?_⟩
      rcases Bool.eq_false_or_eq_true (compute_pass header st).2 with h | h
      · exact absurd h hc
      · exact h

theorem subset_foldl_union (keyInit : Finset String) :
    ∀ (l : ExpMap) (init : Finset String),
      (init ⊆ l.foldl (fun acc p => acc ∪ p.2.first) init) ∧
      (∀ p ∈ l, p.2.first ⊆ l.foldl (fun acc p => acc ∪ p.2.first) init)
  | [], init => ⟨Finset.Subset.refl _, fun p hp => absurd hp (List.not_mem_nil p)⟩
  | q :: rest, init => by
    obtain ⟨h1, h2⟩ := subset_foldl_union keyInit rest (init ∪ q.2.first)
    refine ⟨?_, ?_⟩
    · rw [List.foldl_cons]
      exact Finset.Subset.trans Finset.subset_union_left h1
    · intro p hp
      rcases List.mem_cons.1 hp with rfl | hmem
      · rw [List.foldl_cons]
        exact Finset.Subset.trans Finset.subset_union_right h1
      · rw [List.foldl_cons]
        exact h2 p hmem

theorem firstsBounded_first_universe (header : Header) (st : ExpMap) :
    FirstsBounded (first_universe header st) st := by
  intro k a ha
  have hmem := lookupSym_mem st k a ha
  exact (subset_foldl_union ((header.terminals.map (fun p => p.1)).toFinset) st
    ((header.terminals.map (fun p => p.1)).toFinset)).2 (k, a) hmem

/-- The state returned by `_compute_sets_for_expansions` is stable: running
one more full pass over it reports no change. -/
theorem compute_loop_fuel_stable (header : Header) (st : ExpMap)
    (hnd : (st.map Prod.fst).Nodup) :
    Stable header (compute_loop header (compute_fuel header st) st) := by
  apply compute_loop_stable header (first_universe header st) (compute_fuel header st) st hnd
    (firstsBounded_first_universe header st)
  unfold compute_fuel
  omega

/-- In a pass whose final change flag is `false`, every single update ran
on the untouched state and itself reported `false`. -/
theorem pass_fold_all_false (header : Header) :
    ∀ (l : List (String × Symbol × List String)) (A : ExpMap) (flag : Bool),
      (A.map Prod.fst).Nodup → (∀ t ∈ l, mapHasKey A t.1 = true) →
      (l.foldl (fun acc t =>
          let r := update_first_from_expansion header acc.1 t.1 t.2.2
          let s := update_follow_from_expansion header t.1 t.2.1 t.2.2
          (r.1, acc.2 || (r.2 || s))) (A, flag)).2 = false →
      ∀ t ∈ l, (update_first_go header t.1 A false t.2.2).2 = false
  | [], _, _, _, _, _ => fun t ht => absurd ht (List.not_mem_nil t)
  | t :: ts, A, flag, hnd, hkeys, hfin => by
    rw [List.foldl_cons] at hfin
    have hstep : (let r := update_first_from_expansion header (A, flag).1 t.1 t.2.2
        let s := update_follow_from_expansion header t.1 t.2.1 t.2.2
        ((r.1, (A, flag).2 || (r.2 || s)) : ExpMap × Bool)) =
        ((update_first_go header t.1 A false t.2.2).1,
          flag || (update_first_go header t.1 A false t.2.2).2) := by
      simp only [update_first_from_expansion, update_follow_from_expansion, Bool.or_false]
    rw [hstep] at hfin
    obtain ⟨g1, g2, _, _, _⟩ :=
      update_first_go_spec header t.1 t.2.2 A false hnd (hkeys t (List.mem_cons_self t ts))
    have hnd₁ : ((update_first_go header t.1 A false t.2.2).1.map Prod.fst).Nodup := by
      rw [← g1.keys_eq]; exact hnd
    have hkeys₁ : ∀ u ∈ ts,
        mapHasKey (update_first_go header t.1 A false t.2.2).1 u.1 = true := by
      intro u hu
      rw [mapHasKey_iff_mem_keys, ← g1.keys_eq, ← mapHasKey_iff_mem_keys]
      exact hkeys u (List.mem_cons_of_mem t hu)
    obtain ⟨_, _, _, ih4, _⟩ :=
      pass_fold_spec header ts (update_first_go header t.1 A false t.2.2).1
        (flag || (update_first_go header t.1 A false t.2.2).2) hnd₁ hkeys₁
    have hflag : (flag || (update_first_go header t.1 A false t.2.2).2) = false := by
      rcases Bool.eq_false_or_eq_true
          (flag || (update_first_go header t.1 A false t.2.2).2) with h | h
      · rw [ih4 h] at hfin; cases hfin
      · exact h
    rw [Bool.or_eq_false_iff] at hflag
    obtain ⟨hA, _⟩ := g2 hflag.2
    intro u hu
    rcases List.mem_cons.1 hu with rfl | hmem
    · exact hflag.2
    · have hinit : (((update_first_go header t.1 A false t.2.2).1,
          flag || (update_first_go header t.1 A false t.2.2).2) : ExpMap × Bool) =
          (A, false) := by
        rw [hA, hflag.1, hflag.2]
        rfl
      rw [hinit] at hfin
      exact pass_fold_all_false header ts A false hnd
        (fun v hv => hkeys v (List.mem_cons_of_mem t hv)) hfin u hmem

/-- On a stable state, every (name, expansion) pair's FIRST update reports
no change. -/
theorem stable_updates (header : Header) (st : ExpMap)
    (hnd : (st.map Prod.fst).Nodup) (hs : Stable header st) :
    ∀ t ∈ each_expansion st, (update_first_go header t.1 st false t.2.2).2 = false := by
  have hkeys : ∀ t ∈ each_expansion st, mapHasKey st t.1 = true := by
    intro t ht
    obtain ⟨p, hp, h1, _, _⟩ := mem_each_expansion ht
    rw [mapHasKey_iff_mem_keys, h1]
    exact List.mem_map.2 ⟨p, hp, rfl⟩
  exact pass_fold_all_false header (each_expansion st) st false hnd hkeys hs

/-- A clean scan that reached the end of the expansion certifies the
symbol nullable. -/
theorem go_false_nil (header : Header) (name : String) (st : ExpMap)
    (h : (update_first_go header name st false []).2 = false) :
    ((lookupSym st name).getD Symbol.mkEmpty).is_nullable = true := by
  rw [update_first_go_nil] at h
  by_cases hn : ((lookupSym st name).getD Symbol.mkEmpty).is_nullable = true
  · exact hn
  · rw [if_neg hn] at h
    cases h

/-- A clean scan over a nonterminal head token: its FIRST set is already
absorbed, and when it is nullable the scan of the tail is also clean. -/
theorem go_false_cons (header : Header) (name : String) (st : ExpMap)
    (e : String) (rest : List String)
    (hnd : (st.map Prod.fst).Nodup) (hname : mapHasKey st name = true)
    (h : (update_first_go header name st false (e :: rest)).2 = false)
    (ht : dictHasKey header.terminals e = false)
    {o : Symbol} (ho : lookupSym st e = some o) :
    o.first ⊆ ((lookupSym st name).getD Symbol.mkEmpty).first ∧
    (o.is_nullable = true → (update_first_go header name st false rest).2 = false) := by
  rw [update_first_go_cons] at h
  rw [if_neg (by rw [ht]; exact Bool.false_ne_true)] at h
  rw [ho] at h
  dsimp only at h
  by_cases hsub : o.first ⊆ ((lookupSym st name).getD Symbol.mkEmpty).first
  · rw [if_pos hsub] at h
    refine ⟨hsub, ?_⟩
    intro hn
    rw [if_pos hn] at h
    exact h
  · rw [if_neg hsub] at h
    exfalso
    by_cases hn : o.is_nullable = true
    · rw [if_pos hn] at h
      obtain ⟨a, ha⟩ := lookupSym_isSome_of_hasKey st name hname
      rw [ha] at h
      simp only [Option.getD_some] at h
      have hkeys : (updateSym st name
          (((lookupSym st name).getD Symbol.mkEmpty).add_first o.first)).map Prod.fst =
          st.map Prod.fst := updateSym_keys st name _
      rw [ha] at hkeys
      simp only [Option.getD_some] at hkeys
      obtain ⟨_, _, _, g4, _⟩ := update_first_go_spec header name rest
        (updateSym st name (a.add_first o.first)) true
        (by rw [hkeys]; exact hnd)
        (by rw [mapHasKey_iff_mem_keys, hkeys, ← mapHasKey_iff_mem_keys]; exact hname)
      rw [g4 rfl] at h
      cases h
    · rw [if_neg hn] at h
      cases h

theorem hasKey_of_lookup_some (m : ExpMap) (k : String) (a : Symbol)
    (h : lookupSym m k = some a) : mapHasKey m k = true := by
  rcases Bool.eq_false_or_eq_true (mapHasKey m k) with hk | hk
  · exact hk
  · rw [(lookupSym_eq_none_iff m k).2 hk] at h
    cases h

theorem mapLE_gOf {s t : ExpMap} (h : MapLE s t) : gOf t = gOf s := by
  induction h with
  | nil => rfl
  | cons hpq _ ih =>
    simp only [gOf, List.map_cons] at ih ⊢
    rw [ih, hpq.1, hpq.2.1]

theorem nonEmptyExps_of_mapLE {s t : ExpMap} (h : MapLE s t)
    (hne : NonEmptyExps s) : NonEmptyExps t := by
  intro k b hb
  have hk : mapHasKey s k = true := by
    rw [mapHasKey_iff_mem_keys, h.keys_eq, ← mapHasKey_iff_mem_keys]
    exact hasKey_of_lookup_some t k b hb
  obtain ⟨a, ha⟩ := lookupSym_isSome_of_hasKey s k hk
  obtain ⟨b', hb', hab⟩ := h.lookup k a ha
  rw [hb] at hb'
  cases hb'
  rw [← hab.1]
  exact hne k a ha

theorem is_nullable_cases {a : Symbol} (h : a.is_nullable = true) :
    a.expansions = [] ∨ a.nullable = true := by
  unfold Symbol.is_nullable at h
  by_cases hl : a.expansions.length = 0
  · exact Or.inl (List.length_eq_zero.1 hl)
  · rw [if_neg hl] at h
    exact Or.inr h

theorem is_nullable_of_nullable {a : Symbol} (h : a.nullable = true) :
    a.is_nullable = true := by
  unfold Symbol.is_nullable
  by_cases hl : a.expansions.length = 0
  · rw [if_pos hl]
  · rw [if_neg hl]
    exact h

theorem is_nullable_of_expansions_nil {a : Symbol} (h : a.expansions = []) :
    a.is_nullable = true := by
  unfold Symbol.is_nullable
  rw [h]
  rfl

theorem step_context {g : List (String × List (List String))} {α β : List String}
    (l r : List String) (h : Step g α β) : Step g (l ++ α ++ r) (l ++ β ++ r) := by
  cases h with
  | expand pre post name ll exp hlook hexp =>
    have e1 : l ++ (pre ++ name :: post) ++ r = (l ++ pre) ++ name :: (post ++ r) := by
      simp
    have e2 : l ++ (pre ++ exp ++ post) ++ r = (l ++ pre) ++ exp ++ (post ++ r) := by
      simp
    rw [e1, e2]
    exact Step.expand (l ++ pre) (post ++ r) name ll exp hlook hexp

theorem derives_context {g : List (String × List (List String))} (l r : List String)
    {α β : List String} (h : Derives g α β) : Derives g (l ++ α ++ r) (l ++ β ++ r) := by
  induction h with
  | refl => exact Relation.ReflTransGen.refl
  | tail _ hbc ih => exact Relation.ReflTransGen.tail ih (step_context l r hbc)

theorem Derives.cons_left {g : List (String × List (List String))} (x : String)
    (rest : List String) {u : List String} (h : Derives g [x] u) :
    Derives g (x :: rest) (u ++ rest) := by
  have hc := derives_context ([] : List String) rest h
  simpa using hc

/-- Every (name, expansion) work item of a map is a one-step derivation of
the grammar read off that map. -/
theorem derives_of_each_expansion {st : ExpMap} {g : List (String × List (List String))}
    (hnd : (st.map Prod.fst).Nodup) (hg : gOf st = g) :
    ∀ t ∈ each_expansion st, Derives g [t.1] t.2.2 := by
  intro t ht
  obtain ⟨p, hp, h1, _, h3⟩ := mem_each_expansion ht
  have hlook : lookupSym st t.1 = some p.2 := by
    rw [h1]
    exact mem_lookupSym st hnd p.1 p.2 hp
  have hlg : lookupG g t.1 = some p.2.expansions := by
    rw [← hg, lookupG_gOf, hlook]
    rfl
  have hstep : Step g [t.1] t.2.2 := by
    have hs := Step.expand [] [] t.1 p.2.expansions t.2.2 hlg h3
    simpa using hs
  exact Relation.ReflTransGen.single hstep

/-- The FIRST-soundness invariant is preserved by one token scan, provided
the remaining suffix of the expansion is derivable from the symbol. -/
theorem go_sound (header : Header) (g : List (String × List (List String)))
    (name : String) :
    ∀ (exp : List String) (st : ExpMap) (changed : Bool),
      (st.map Prod.fst).Nodup → mapHasKey st name = true →
      gOf st = g → NonEmptyExps st → SoundState header g st →
      Derives g [name] exp →
      SoundState header g (update_first_go header name st changed exp).1
  | [], st, changed, hnd, hname, hg, hne, hsound, hd => by
    rw [update_first_go_nil]
    by_cases hn : ((lookupSym st name).getD Symbol.mkEmpty).is_nullable = true
    · rw [if_pos hn]
      exact hsound
    · rw [if_neg hn]
      obtain ⟨a, ha⟩ := lookupSym_isSome_of_hasKey st name hname
      rw [ha]
      simp only [Option.getD_some]
      intro k b hb
      by_cases hk : k = name
      · subst hk
        rw [lookupSym_updateSym_self, if_pos hname] at hb
        cases hb
        exact ⟨fun t htmem => (hsound k a ha).1 t htmem, fun _ => hd⟩
      · rw [lookupSym_updateSym_ne st name k _ hk] at hb
        exact hsound k b hb
  | e :: rest, st, changed, hnd, hname, hg, hne, hsound, hd => by
    rw [update_first_go_cons]
    by_cases ht : dictHasKey header.terminals e = true
    · rw [if_pos ht]
      exact hsound
    · rw [if_neg ht]
      rcases hlo : lookupSym st e with _ | o
      · dsimp only
        exact hsound
      · dsimp only
        obtain ⟨a, ha⟩ := lookupSym_isSome_of_hasKey st name hname
        rw [ha]
        simp only [Option.getD_some]
        have hoSound := hsound e o hlo
        by_cases hsub : o.first ⊆ a.first
        · rw [if_pos hsub]
          by_cases hn : o.is_nullable = true
          · rw [if_pos hn]
            have honull : o.nullable = true := by
              rcases is_nullable_cases hn with hnil | h
              · exact absurd hnil (hne e o hlo)
              · exact h
            have hd' : Derives g [name] rest :=
              hd.trans (Derives.cons_left e rest (hoSound.2 honull))
            exact go_sound header g name rest st changed hnd hname hg hne hsound hd'
          · rw [if_neg hn]
            exact hsound
        · rw [if_neg hsub]
          have hle : MapLE st (updateSym st name (a.add_first o.first)) :=
            mapLE_updateSym st hnd name a _ ha (SymbolLE.add_first a o.first)
          have hup : lookupSym (updateSym st name (a.add_first o.first)) name =
              some (a.add_first o.first) := by
            rw [lookupSym_updateSym_self, if_pos hname]
          have hsound₁ : SoundState header g (updateSym st name (a.add_first o.first)) := by
            intro k b hb
            by_cases hk : k = name
            · subst hk
              rw [hup] at hb
              cases hb
              refine ⟨?_, fun hnul => (hsound k a ha).2 hnul⟩
              intro t htmem
              rcases Finset.mem_union.1 htmem with hta | hto
              · exact (hsound k a ha).1 t hta
              · refine ⟨(hoSound.1 t hto).1, ?_⟩
                obtain ⟨β, hder⟩ := (hoSound.1 t hto).2
                exact ⟨β ++ rest, hd.trans (Derives.cons_left e rest hder)⟩
            · rw [lookupSym_updateSym_ne st name k _ hk] at hb
              exact hsound k b hb
          by_cases hn : o.is_nullable = true
          · rw [if_pos hn]
            dsimp only
            have hnd₁ : ((updateSym st name (a.add_first o.first)).map Prod.fst).Nodup := by
              rw [updateSym_keys]
              exact hnd
            have hname₁ : mapHasKey (updateSym st name (a.add_first o.first)) name = true := by
              rw [mapHasKey_iff_mem_keys, updateSym_keys, ← mapHasKey_iff_mem_keys]
              exact hname
            have hg₁ : gOf (updateSym st name (a.add_first o.first)) = g := by
              rw [mapLE_gOf hle]
              exact hg
            have hne₁ : NonEmptyExps (updateSym st name (a.add_first o.first)) :=
              nonEmptyExps_of_mapLE hle hne
            have honull : o.nullable = true := by
              rcases is_nullable_cases hn with hnil | h
              · exact absurd hnil (hne e o hlo)
              · exact h
            have hd' : Derives g [name] rest :=
              hd.trans (Derives.cons_left e rest (hoSound.2 honull))
            exact go_sound header g name rest (updateSym st name (a.add_first o.first))
              true hnd₁ hname₁ hg₁ hne₁ hsound₁ hd'
          · rw [if_neg hn]
            exact hsound₁

/-- The justified-nullability invariant is preserved by one token scan,
where the continuation hypothesis turns a `NullStar` certificate for the
remaining suffix into a justification for the scanned symbol. -/
theorem go_null (header : Header) (g : List (String × List (List String)))
    (name : String) :
    ∀ (exp : List String) (st : ExpMap) (changed : Bool),
      (st.map Prod.fst).Nodup → mapHasKey st name = true →
      gOf st = g → NullState header g st →
      (NullStar header g exp → NullableJ header g name) →
      NullState header g (update_first_go header name st changed exp).1
  | [], st, changed, hnd, hname, hg, hnull, hcont => by
    rw [update_first_go_nil]
    by_cases hn : ((lookupSym st name).getD Symbol.mkEmpty).is_nullable = true
    · rw [if_pos hn]
      exact hnull
    · rw [if_neg hn]
      obtain ⟨a, ha⟩ := lookupSym_isSome_of_hasKey st name hname
      rw [ha]
      simp only [Option.getD_some]
      intro k b hb
      by_cases hk : k = name
      · subst hk
        rw [lookupSym_updateSym_self, if_pos hname] at hb
        cases hb
        exact fun _ => hcont NullStar.nil
      · rw [lookupSym_updateSym_ne st name k _ hk] at hb
        exact hnull k b hb
  | e :: rest, st, changed, hnd, hname, hg, hnull, hcont => by
    rw [update_first_go_cons]
    by_cases ht : dictHasKey header.terminals e = true
    · rw [if_pos ht]
      exact hnull
    · rw [if_neg ht]
      have htf : dictHasKey header.terminals e = false := by
        rcases Bool.eq_false_or_eq_true (dictHasKey header.terminals e) with h | h
        · exact absurd h ht
        · exact h
      rcases hlo : lookupSym st e with _ | o
      · dsimp only
        exact hnull
      · dsimp only
        obtain ⟨a, ha⟩ := lookupSym_isSome_of_hasKey st name hname
        rw [ha]
        simp only [Option.getD_some]
        have hlge : lookupG g e = some o.expansions := by
          rw [← hg, lookupG_gOf, hlo]
          rfl
        have hcont' : o.is_nullable = true →
            (NullStar header g rest → NullableJ header g name) := by
          intro hn ns
          apply hcont
          rcases is_nullable_cases hn with hnil | hnul
          · exact NullStar.consEmpty e rest htf (by rw [hlge, hnil]) ns
          · obtain ⟨l', exp', hl', hexp', ns'⟩ := hnull e o hlo hnul
            exact NullStar.consDerived e rest l' exp' htf hl' hexp' ns' ns
        by_cases hsub : o.first ⊆ a.first
        · rw [if_pos hsub]
          by_cases hn : o.is_nullable = true
          · rw [if_pos hn]
            exact go_null header g name rest st changed hnd hname hg hnull (hcont' hn)
          · rw [if_neg hn]
            exact hnull
        · rw [if_neg hsub]
          have hle : MapLE st (updateSym st name (a.add_first o.first)) :=
            mapLE_updateSym st hnd name a _ ha (SymbolLE.add_first a o.first)
          have hup : lookupSym (updateSym st name (a.add_first o.first)) name =
              some (a.add_first o.first) := by
            rw [lookupSym_updateSym_self, if_pos hname]
          have hnull₁ : NullState header g (updateSym st name (a.add_first o.first)) := by
            intro k b hb
            by_cases hk : k = name
            · subst hk
              rw [hup] at hb
              cases hb
              exact fun hnul => hnull k a ha hnul
            · rw [lookupSym_updateSym_ne st name k _ hk] at hb
              exact hnull k b hb
          by_cases hn : o.is_nullable = true
          · rw [if_pos hn]
            dsimp only
            have hnd₁ : ((updateSym st name (a.add_first o.first)).map Prod.fst).Nodup := by
              rw [updateSym_keys]
              exact hnd
            have hname₁ : mapHasKey (updateSym st name (a.add_first o.first)) name = true := by
              rw [mapHasKey_iff_mem_keys, updateSym_keys, ← mapHasKey_iff_mem_keys]
              exact hname
            have hg₁ : gOf (updateSym st name (a.add_first o.first)) = g := by
              rw [mapLE_gOf hle]
              exact hg
            exact go_null header g name rest (updateSym st name (a.add_first o.first))
              true hnd₁ hname₁ hg₁ hnull₁ (hcont' hn)
          · rw [if_neg hn]
            exact hnull₁

theorem lookupG_of_each_expansion {st : ExpMap} {g : List (String × List (List String))}
    (hnd : (st.map Prod.fst).Nodup) (hg : gOf st = g) :
    ∀ t ∈ each_expansion st, ∃ lt, lookupG g t.1 = some lt ∧ t.2.2 ∈ lt := by
  intro t ht
  obtain ⟨p, hp, h1, _, h3⟩ := mem_each_expansion ht
  have hlook : lookupSym st t.1 = some p.2 := by
    rw [h1]
    exact mem_lookupSym st hnd p.1 p.2 hp
  refine ⟨p.2.expansions, ?_, h3⟩
  rw [← hg, lookupG_gOf, hlook]
  rfl

/-- Both semantic invariants are preserved by the fold of one pass. -/
theorem pass_fold_inv (header : Header) (g : List (String × List (List String))) :
    ∀ (l : List (String × Symbol × List String)) (A : ExpMap) (flag : Bool),
      (A.map Prod.fst).Nodup → (∀ t ∈ l, mapHasKey A t.1 = true) →
      gOf A = g → NonEmptyExps A →
      SoundState header g A → NullState header g A →
      (∀ t ∈ l, Derives g [t.1] t.2.2) →
      (∀ t ∈ l, ∃ lt, lookupG g t.1 = some lt ∧ t.2.2 ∈ lt) →
      SoundState header g (l.foldl (fun acc t =>
          let r := update_first_from_expansion header acc.1 t.1 t.2.2
          let s := update_follow_from_expansion header t.1 t.2.1 t.2.2
          (r.1, acc.2 || (r.2 || s))) (A, flag)).1 ∧
      NullState header g (l.foldl (fun acc t =>
          let r := update_first_from_expansion header acc.1 t.1 t.2.2
          let s := update_follow_from_expansion header t.1 t.2.1 t.2.2
          (r.1, acc.2 || (r.2 || s))) (A, flag)).1
  | [], A, flag, _, _, _, _, hsound, hnull, _, _ => ⟨hsound, hnull⟩
  | t :: ts, A, flag, hnd, hkeys, hg, hne, hsound, hnull, hder, hlg => by
    rw [List.foldl_cons]
    have hstep : (let r := update_first_from_expansion header (A, flag).1 t.1 t.2.2
        let s := update_follow_from_expansion header t.1 t.2.1 t.2.2
        ((r.1, (A, flag).2 || (r.2 || s)) : ExpMap × Bool)) =
        ((update_first_go header t.1 A false t.2.2).1,
          flag || (update_first_go header t.1 A false t.2.2).2) := by
      simp only [update_first_from_expansion, update_follow_from_expansion, Bool.or_false]
    rw [hstep]
    obtain ⟨g1, _, _, _, _⟩ :=
      update_first_go_spec header t.1 t.2.2 A false hnd (hkeys t (List.mem_cons_self t ts))
    have hnd₁ : ((update_first_go header t.1 A false t.2.2).1.map Prod.fst).Nodup := by
      rw [← g1.keys_eq]
      exact hnd
    have hkeys₁ : ∀ u ∈ ts,
        mapHasKey (update_first_go header t.1 A false t.2.2).1 u.1 = true := by
      intro u hu
      rw [mapHasKey_iff_mem_keys, ← g1.keys_eq, ← mapHasKey_iff_mem_keys]
      exact hkeys u (List.mem_cons_of_mem t hu)
    have hg₁ : gOf (update_first_go header t.1 A false t.2.2).1 = g := by
      rw [mapLE_gOf g1]
      exact hg
    have hne₁ : NonEmptyExps (update_first_go header t.1 A false t.2.2).1 :=
      nonEmptyExps_of_mapLE g1 hne
    have hsound₁ : SoundState header g (update_first_go header t.1 A false t.2.2).1 :=
      go_sound header g t.1 t.2.2 A false hnd (hkeys t (List.mem_cons_self t ts))
        hg hne hsound (hder t (List.mem_cons_self t ts))
    have hnull₁ : NullState header g (update_first_go header t.1 A false t.2.2).1 := by
      obtain ⟨lt, hlt, hmem⟩ := hlg t (List.mem_cons_self t ts)
      exact go_null header g t.1 t.2.2 A false hnd (hkeys t (List.mem_cons_self t ts))
        hg hnull (fun ns => ⟨lt, t.2.2, hlt, hmem, ns⟩)
    exact pass_fold_inv header g ts (update_first_go header t.1 A false t.2.2).1
      (flag || (update_first_go header t.1 A false t.2.2).2) hnd₁ hkeys₁ hg₁ hne₁
      hsound₁ hnull₁ (fun u hu => hder u (List.mem_cons_of_mem t hu))
      (fun u hu => hlg u (List.mem_cons_of_mem t hu))

/-- Both semantic invariants are preserved by the whole fixpoint loop. -/
theorem compute_loop_inv (header : Header) (g : List (String × List (List String))) :
    ∀ (fuel : Nat) (st : ExpMap),
      (st.map Prod.fst).Nodup → gOf st = g → NonEmptyExps st →
      SoundState header g st → NullState header g st →
      SoundState header g (compute_loop header fuel st) ∧
      NullState header g (compute_loop header fuel st)
  | 0, st, _, _, _, hsound, hnull => ⟨hsound, hnull⟩
  | fuel + 1, st, hnd, hg, hne, hsound, hnull => by
    rw [compute_loop_succ]
    have hkeys : ∀ t ∈ each_expansion st, mapHasKey st t.1 = true := by
      intro t ht
      obtain ⟨p, hp, h1, _, _⟩ := mem_each_expansion ht
      rw [mapHasKey_iff_mem_keys, h1]
      exact List.mem_map.2 ⟨p, hp, rfl⟩
    obtain ⟨hpS, hpN⟩ := pass_fold_inv header g (each_expansion st) st false hnd hkeys
      hg hne hsound hnull (derives_of_each_expansion hnd hg)
      (lookupG_of_each_expansion hnd hg)
    obtain ⟨p1, _, _, _⟩ := compute_pass_spec header st hnd
    have hnd' : ((compute_pass header st).1.map Prod.fst).Nodup := by
      rw [← p1.keys_eq]
      exact hnd
    have hg' : gOf (compute_pass header st).1 = g := by
      rw [mapLE_gOf p1]
      exact hg
    have hne' : NonEmptyExps (compute_pass header st).1 := nonEmptyExps_of_mapLE p1 hne
    by_cases hc : (compute_pass header st).2 = true
    · rw [if_pos hc]
      exact compute_loop_inv header g fuel (compute_pass header st).1 hnd' hg' hne' hpS hpN
    · rw [if_neg hc]
      exact ⟨hpS, hpN⟩

/-- Completeness of the nullability verdict on a stable state: a clean
scan of a `NullStar` token list certifies the owning symbol nullable. -/
theorem stable_nullstar_complete (header : Header) (g : List (String × List (List String)))
    (final : ExpMap) (hnd : (final.map Prod.fst).Nodup) (hg : gOf final = g)
    (hs : Stable header final) :
    ∀ (exp : List String), NullStar header g exp →
      ∀ name, mapHasKey final name = true →
        (update_first_go header name final false exp).2 = false →
        ((lookupSym final name).getD Symbol.mkEmpty).is_nullable = true := by
  intro exp ns
  induction ns with
  | nil =>
    intro name _ hfalse
    exact go_false_nil header name final hfalse
  | consEmpty e rest htf hlge _ ih =>
    intro name hname hfalse
    rw [← hg, lookupG_gOf] at hlge
    rcases hoe : lookupSym final e with _ | oe
    · rw [hoe] at hlge
      cases hlge
    · rw [hoe] at hlge
      simp only [Option.map_some'] at hlge
      have hone : oe.is_nullable = true :=
        is_nullable_of_expansions_nil (Option.some.inj hlge)
      obtain ⟨_, himp⟩ := go_false_cons header name final e rest hnd hname hfalse htf hoe
      exact ih name hname (himp hone)
  | consDerived e rest l' exp' htf hlge hexp' _ _ ih1 ih2 =>
    intro name hname hfalse
    rw [← hg, lookupG_gOf] at hlge
    rcases hoe : lookupSym final e with _ | oe
    · rw [hoe] at hlge
      cases hlge
    · rw [hoe] at hlge
      simp only [Option.map_some'] at hlge
      have hexps : oe.expansions = l' := Option.some.inj hlge
      have hekey : mapHasKey final e = true := hasKey_of_lookup_some final e oe hoe
      have hscan : (update_first_go header e final false exp').2 = false := by
        have hmem : (e, oe, exp') ∈ each_expansion final :=
          each_expansion_of_mem (lookupSym_mem final e oe hoe) (by rw [hexps]; exact hexp')
        exact stable_updates header final hnd hs (e, oe, exp') hmem
      have hone : oe.is_nullable = true := by
        have := ih1 e hekey hscan
        rw [hoe] at this
        simpa using this
      obtain ⟨_, himp⟩ := go_false_cons header name final e rest hnd hname hfalse htf hoe
      exact ih2 name hname (himp hone)

/-- On a stable state, every justified-nullable symbol reports nullable. -/
theorem stable_nullableJ (header : Header) (g : List (String × List (List String)))
    (final : ExpMap) (hnd : (final.map Prod.fst).Nodup) (hg : gOf final = g)
    (hs : Stable header final) (name : String) (hj : NullableJ header g name) :
    ∃ a, lookupSym final name = some a ∧ a.is_nullable = true := by
  obtain ⟨l, exp, hl, hexp, ns⟩ := hj
  rw [← hg, lookupG_gOf] at hl
  rcases ha : lookupSym final name with _ | a
  · rw [ha] at hl
    cases hl
  · rw [ha] at hl
    simp only [Option.map_some'] at hl
    have hexps : a.expansions = l := Option.some.inj hl
    have hkey : mapHasKey final name = true := hasKey_of_lookup_some final name a ha
    have hscan : (update_first_go header name final false exp).2 = false := by
      have hmem : (name, a, exp) ∈ each_expansion final :=
        each_expansion_of_mem (lookupSym_mem final name a ha) (by rw [hexps]; exact hexp)
      exact stable_updates header final hnd hs (name, a, exp) hmem
    have hres := stable_nullstar_complete header g final hnd hg hs exp ns name hkey hscan
    rw [ha] at hres
    simp only [Option.getD_some] at hres
    exact ⟨a, rfl, hres⟩

/-- On a stable state, a symbol with an empty expansion reports nullable. -/
theorem stable_empty_expansion_nullable (header : Header) (final : ExpMap)
    (hnd : (final.map Prod.fst).Nodup) (hs : Stable header final)
    (name : String) (a : Symbol) (ha : lookupSym final name = some a)
    (hmem : [] ∈ a.expansions) : a.is_nullable = true := by
  have hkey : mapHasKey final name = true := hasKey_of_lookup_some final name a ha
  have hscan : (update_first_go header name final false []).2 = false := by
    have hm : (name, a, ([] : List String)) ∈ each_expansion final :=
      each_expansion_of_mem (lookupSym_mem final name a ha) hmem
    exact stable_updates header final hnd hs (name, a, []) hm
  have hres := go_false_nil header name final hscan
  rw [ha] at hres
  simpa using hres

/-- Facts about a freshly built symbol: `add_expansion` keeps the FIRST
and FOLLOW sets, appends the expansion and tracks nullability of empty
expansions. -/
theorem add_expansion_props (s : Symbol) (exp : List String)
    (h1 : s.first = ∅) (h2 : s.follow = ∅)
    (h3 : s.nullable = true ↔ [] ∈ s.expansions) :
    (s.add_expansion exp).first = ∅ ∧ (s.add_expansion exp).follow = ∅ ∧
    ((s.add_expansion exp).nullable = true ↔ [] ∈ (s.add_expansion exp).expansions) ∧
    (s.add_expansion exp).expansions ≠ [] ∧
    (s.add_expansion exp).expansions = s.expansions ++ [exp] := by
  unfold Symbol.add_expansion
  by_cases he : exp.isEmpty = true
  · rw [if_pos he]
    have hexp : exp = [] := by
      cases exp
      · rfl
      · cases he
    refine ⟨h1, h2, ?_, ?_, rfl⟩
    · simp [Symbol.set_nullable, hexp]
    · simp [Symbol.set_nullable]
  · rw [if_neg he]
    have hexp : exp ≠ [] := by
      intro hc
      rw [hc] at he
      exact he rfl
    refine ⟨h1, h2, ?_, by simp, rfl⟩
    simp only []
    rw [h3]
    constructor
    · intro hm
      exact List.mem_append.2 (Or.inl hm)
    · intro hm
      rcases List.mem_append.1 hm with hm | hm
      · exact hm
      · exact absurd (List.mem_singleton.1 hm).symm hexp

theorem insertSym_nodup (m : ExpMap) (k : String) (s : Symbol)
    (hnd : (m.map Prod.fst).Nodup) : ((insertSym m k s).map Prod.fst).Nodup := by
  unfold insertSym
  by_cases hk : mapHasKey m k = true
  · rw [if_pos hk, updateSym_keys]
    exact hnd
  · rw [if_neg hk]
    rw [List.map_append]
    simp only [List.map_cons, List.map_nil]
    rw [List.nodup_append]
    refine ⟨hnd, List.nodup_singleton k, ?_⟩
    intro x hx hxk
    rw [List.mem_singleton] at hxk
    subst hxk
    rw [mapHasKey_iff_mem_keys] at hk
    exact hk hx

theorem mem_insertSym {m : ExpMap} {k : String} {s : Symbol} {p : String × Symbol}
    (hp : p ∈ insertSym m k s) : p = (k, s) ∨ p ∈ m := by
  unfold insertSym at hp
  by_cases hk : mapHasKey m k = true
  · rw [if_pos hk] at hp
    unfold updateSym at hp
    obtain ⟨q, hq, hfq⟩ := List.mem_map.1 hp
    by_cases hqk : q.1 = k
    · rw [if_pos hqk] at hfq
      exact Or.inl hfq.symm
    · rw [if_neg hqk] at hfq
      exact Or.inr (hfq ▸ hq)
  · rw [if_neg hk] at hp
    rcases List.mem_append.1 hp with hm | hm
    · exact Or.inr hm
    · exact Or.inl (List.mem_singleton.1 hm)

/-- The symbol-table builder produces a map with distinct keys whose every
symbol has a non-empty expansion list, empty FIRST and FOLLOW sets, and a
nullability flag recording exactly the presence of an empty expansion. -/
theorem process_expansions_fold_invariant :
    ∀ (lines : List String) (m : ExpMap),
      (m.map Prod.fst).Nodup →
      (∀ p ∈ m, p.2.first = ∅ ∧ p.2.follow = ∅ ∧
        (p.2.nullable = true ↔ [] ∈ p.2.expansions) ∧ p.2.expansions ≠ []) →
      ((lines.foldl (fun exps l =>
          let se := kv_with_sep l ":="
          let s := (lookupSym exps se.1).getD Symbol.mkEmpty
          insertSym exps se.1 (s.add_expansion (pySplit se.2))) m).map Prod.fst).Nodup ∧
      (∀ p ∈ lines.foldl (fun exps l =>
          let se := kv_with_sep l ":="
          let s := (lookupSym exps se.1).getD Symbol.mkEmpty
          insertSym exps se.1 (s.add_expansion (pySplit se.2))) m,
        p.2.first = ∅ ∧ p.2.follow = ∅ ∧
        (p.2.nullable = true ↔ [] ∈ p.2.expansions) ∧ p.2.expansions ≠ [])
  | [], m, hnd, hinv => ⟨hnd, hinv⟩
  | line :: rest, m, hnd, hinv => by
    rw [List.foldl_cons]
    have hbase : ((lookupSym m (kv_with_sep line ":=").1).getD Symbol.mkEmpty).first = ∅ ∧
        ((lookupSym m (kv_with_sep line ":=").1).getD Symbol.mkEmpty).follow = ∅ ∧
        (((lookupSym m (kv_with_sep line ":=").1).getD Symbol.mkEmpty).nullable = true ↔
          [] ∈ ((lookupSym m (kv_with_sep line ":=").1).getD Symbol.mkEmpty).expansions) := by
      rcases hl : lookupSym m (kv_with_sep line ":=").1 with _ | a
      · simp [Symbol.mkEmpty]
      · simp only [Option.getD_some]
        have := hinv ((kv_with_sep line ":=").1, a) (lookupSym_mem m _ a hl)
        exact ⟨this.1, this.2.1, this.2.2.1⟩
    obtain ⟨hp1, hp2, hp3, hp4, _⟩ :=
      add_expansion_props ((lookupSym m (kv_with_sep line ":=").1).getD Symbol.mkEmpty)
        (pySplit (kv_with_sep line ":=").2) hbase.1 hbase.2.1 hbase.2.2
    apply process_expansions_fold_invariant rest
    · exact insertSym_nodup m _ _ hnd
    · intro p hp
      rcases mem_insertSym hp with rfl | hm
      · exact ⟨hp1, hp2, hp3, hp4⟩
      · exact hinv p hm

theorem process_expansions_invariant (text : String) :
    ((process_expansions text).map Prod.fst).Nodup ∧
    ∀ p ∈ process_expansions text,
      p.2.first = ∅ ∧ p.2.follow = ∅ ∧
      (p.2.nullable = true ↔ [] ∈ p.2.expansions) ∧ p.2.expansions ≠ [] :=
  process_expansions_fold_invariant (processed_lines text) []
    List.nodup_nil (fun p hp => absurd hp (List.not_mem_nil p))

theorem except_bind_error {ε α β : Type} (msg : ε) (f : α → Except ε β) :
    (Except.error msg >>= f) = .error msg := rfl

theorem except_bind_ok {ε α β : Type} (a : α) (f : α → Except ε β) :
    (Except.ok a >>= f) = f a := rfl

theorem check_tokens_ok_iff (header : Header) (full : ExpMap) :
    ∀ (exp : List String), check_tokens header full exp = .ok () ↔
      ∀ e ∈ exp, dictHasKey header.terminals e = true ∨ mapHasKey full e = true
  | [] => by
    constructor
    · intro _ e he
      exact absurd he (List.not_mem_nil e)
    · intro _
      rfl
  | e :: rest => by
    unfold check_tokens
    by_cases hc : (dictHasKey header.terminals e || mapHasKey full e) = true
    · rw [if_pos hc, check_tokens_ok_iff header full rest]
      rw [Bool.or_eq_true] at hc
      constructor
      · intro h x hx
        rcases List.mem_cons.1 hx with rfl | hx
        · exact hc
        · exact h x hx
      · intro h x hx
        exact h x (List.mem_cons_of_mem e hx)
    · rw [if_neg hc]
      constructor
      · intro h
        cases h
      · intro h
        apply absurd _ hc
        rcases h e (List.mem_cons_self e rest) with h' | h'
        · rw [h']
          rfl
        · rw [h', Bool.or_true]

theorem check_tokens_error (header : Header) (full : ExpMap) :
    ∀ (exp : List String) (msg : ParsegenError),
      check_tokens header full exp = .error msg →
      ∃ e ∈ exp, dictHasKey header.terminals e = false ∧ mapHasKey full e = false ∧
        msg = .grammarError (e ++ " is not defined as a terminal or nonterminal")
  | [], msg, h => by cases h
  | e :: rest, msg, h => by
    unfold check_tokens at h
    by_cases hc : (dictHasKey header.terminals e || mapHasKey full e) = true
    · rw [if_pos hc] at h
      obtain ⟨x, hx, h1, h2, h3⟩ := check_tokens_error header full rest msg h
      exact ⟨x, List.mem_cons_of_mem e hx, h1, h2, h3⟩
    · rw [if_neg hc] at h
      cases h
      have hcf : (dictHasKey header.terminals e || mapHasKey full e) = false := by
        rcases Bool.eq_false_or_eq_true (dictHasKey header.terminals e || mapHasKey full e)
          with h' | h'
        · exact absurd h' hc
        · exact h'
      rw [Bool.or_eq_false_iff] at hcf
      exact ⟨e, List.mem_cons_self e rest, hcf.1, hcf.2, rfl⟩

theorem init_expansion_def (header : Header) (full : ExpMap) (s : Symbol)
    (exp : List String) :
    init_expansion header full s exp =
      (check_tokens header full exp >>= fun _ =>
        Except.ok (seed_first header s exp)) := rfl

theorem init_expansion_ok {header : Header} {full : ExpMap} {s : Symbol}
    {exp : List String} {s' : Symbol}
    (h : init_expansion header full s exp = .ok s') :
    check_tokens header full exp = .ok () ∧ s' = seed_first header s exp := by
  rw [init_expansion_def] at h
  rcases hc : check_tokens header full exp with msg | u
  · rw [hc, except_bind_error] at h
    cases h
  · rw [hc, except_bind_ok] at h
    cases u
    cases h
    exact ⟨rfl, rfl⟩

theorem init_expansion_of_check_ok {header : Header} {full : ExpMap} (s : Symbol)
    {exp : List String} (hc : check_tokens header full exp = .ok ()) :
    init_expansion header full s exp = .ok (seed_first header s exp) := by
  rw [init_expansion_def, hc, except_bind_ok]

theorem init_expansion_error {header : Header} {full : ExpMap} {s : Symbol}
    {exp : List String} {msg : ParsegenError}
    (h : init_expansion header full s exp = .error msg) :
    check_tokens header full exp = .error msg := by
  rw [init_expansion_def] at h
  rcases hc : check_tokens header full exp with m | u
  · rw [hc, except_bind_error] at h
    cases h
    rfl
  · rw [hc, except_bind_ok] at h
    cases h

theorem init_foldlM_ok (header : Header) (full : ExpMap) :
    ∀ (exps : List (List String)) (s s' : Symbol),
      exps.foldlM (init_expansion header full) s = .ok s' →
      s'.expansions = s.expansions ∧ s'.follow = s.follow ∧
      s'.nullable = s.nullable ∧
      (∀ t ∈ s'.first, t ∈ s.first ∨ (dictHasKey header.terminals t = true ∧
        ∃ r, (t :: r) ∈ exps)) ∧
      (∀ exp ∈ exps, check_tokens header full exp = .ok ())
  | [], s, s', h => by
    rw [List.foldlM_nil] at h
    cases h
    exact ⟨rfl, rfl, rfl, fun t ht => Or.inl ht,
      fun exp hexp => absurd hexp (List.not_mem_nil exp)⟩
  | exp :: exps, s, s', h => by
    rw [List.foldlM_cons] at h
    rcases hi : init_expansion header full s exp with msg | s₁
    · rw [hi, except_bind_error] at h
      cases h
    · rw [hi, except_bind_ok] at h
      obtain ⟨h1, h2, h3, h4, h5⟩ := init_foldlM_ok header full exps s₁ s' h
      obtain ⟨hc, hseed⟩ := init_expansion_ok hi
      have hfacts : s₁.expansions = s.expansions ∧ s₁.follow = s.follow ∧
          s₁.nullable = s.nullable ∧
          (∀ t ∈ s₁.first, t ∈ s.first ∨ (dictHasKey header.terminals t = true ∧
            ∃ r, (t :: r) = exp)) := by
        rw [hseed]
        rcases exp with _ | ⟨e, tl⟩
        · exact ⟨rfl, rfl, rfl, fun t ht => Or.inl ht⟩
        · unfold seed_first
          dsimp only
          by_cases hterm : dictHasKey header.terminals e = true
          · rw [if_pos hterm]
            refine ⟨rfl, rfl, rfl, ?_⟩
            intro t ht
            rcases Finset.mem_union.1 ht with ht | ht
            · exact Or.inl ht
            · rw [Finset.mem_singleton] at ht
              subst ht
              exact Or.inr ⟨hterm, tl, rfl⟩
          · rw [if_neg hterm]
            exact ⟨rfl, rfl, rfl, fun t ht => Or.inl ht⟩
      refine ⟨h1.trans hfacts.1, h2.trans hfacts.2.1, h3.trans hfacts.2.2.1, ?_, ?_⟩
      · intro t ht
        rcases h4 t ht with ht' | ⟨hterm, r, hr⟩
        · rcases hfacts.2.2.2 t ht' with ht'' | ⟨hterm, r, hr⟩
          · exact Or.inl ht''
          · exact Or.inr ⟨hterm, r, hr ▸ List.mem_cons_self exp exps⟩
        · exact Or.inr ⟨hterm, r, List.mem_cons_of_mem exp hr⟩
      · intro x hx
        rcases List.mem_cons.1 hx with rfl | hx
        · exact hc
        · exact h5 x hx

theorem init_foldlM_of_checks (header : Header) (full : ExpMap) :
    ∀ (exps : List (List String)) (s : Symbol),
      (∀ exp ∈ exps, check_tokens header full exp = .ok ()) →
      ∃ s', exps.foldlM (init_expansion header full) s = .ok s'
  | [], s, _ => ⟨s, by rw [List.foldlM_nil]; rfl⟩
  | exp :: exps, s, hch => by
    rw [List.foldlM_cons]
    rw [init_expansion_of_check_ok s (hch exp (List.mem_cons_self exp exps)),
      except_bind_ok]
    exact init_foldlM_of_checks header full exps _
      (fun x hx => hch x (List.mem_cons_of_mem exp hx))

theorem init_foldlM_error (header : Header) (full : ExpMap) :
    ∀ (exps : List (List String)) (s : Symbol) (msg : ParsegenError),
      exps.foldlM (init_expansion header full) s = .error msg →
      ∃ exp ∈ exps, ∃ e ∈ exp, dictHasKey header.terminals e = false ∧
        mapHasKey full e = false ∧
        msg = .grammarError (e ++ " is not defined as a terminal or nonterminal")
  | [], s, msg, h => by
    rw [List.foldlM_nil] at h
    cases h
  | exp :: exps, s, msg, h => by
    rw [List.foldlM_cons] at h
    rcases hi : init_expansion header full s exp with m | s₁
    · rw [hi, except_bind_error] at h
      injection h with hmsg
      subst hmsg
      obtain ⟨e, he, h1, h2, h3⟩ :=
        check_tokens_error header full exp _ (init_expansion_error hi)
      exact ⟨exp, List.mem_cons_self exp exps, e, he, h1, h2, h3⟩
    · rw [hi, except_bind_ok] at h
      obtain ⟨x, hx, e, he, h1, h2, h3⟩ := init_foldlM_error header full exps s₁ msg h
      exact ⟨x, List.mem_cons_of_mem exp hx, e, he, h1, h2, h3⟩

/-- A successful validation relates input and output entry by entry: names,
expansions, FOLLOW sets and nullability flags are untouched; FIRST sets
only gain seeded head terminals; and every name and token check passed. -/
theorem init_entries_ok_forall₂ (header : Header) (full : ExpMap) :
    ∀ (l st' : ExpMap), init_entries header full l = .ok st' →
      List.Forall₂ (fun p q => p.1 = q.1 ∧ q.2.expansions = p.2.expansions ∧
        q.2.follow = p.2.follow ∧ q.2.nullable = p.2.nullable ∧
        (∀ t ∈ q.2.first, t ∈ p.2.first ∨ (dictHasKey header.terminals t = true ∧
          ∃ r, (t :: r) ∈ p.2.expansions)) ∧
        dictHasKey header.terminals p.1 = false ∧
        (∀ exp ∈ p.2.expansions, check_tokens header full exp = .ok ())) l st'
  | [], st', h => by
    cases h
    exact List.Forall₂.nil
  | (name, symbol) :: rest, st', h => by
    unfold init_entries at h
    by_cases hterm : dictHasKey header.terminals name = true
    · rw [if_pos hterm] at h
      cases h
    · rw [if_neg hterm] at h
      rcases hf : symbol.expansions.foldlM (init_expansion header full) symbol
        with msg | sym'
      · rw [hf, except_bind_error] at h
        cases h
      · rw [hf, except_bind_ok] at h
        rcases hr : init_entries header full rest with msg | rest'
        · rw [hr, except_bind_error] at h
          cases h
        · rw [hr, except_bind_ok] at h
          cases h
          obtain ⟨h1, h2, h3, h4, h5⟩ :=
            init_foldlM_ok header full symbol.expansions symbol sym' hf
          have htermf : dictHasKey header.terminals name = false := by
            rcases Bool.eq_false_or_eq_true (dictHasKey header.terminals name)
              with h' | h'
            · exact absurd h' hterm
            · exact h'
          exact List.Forall₂.cons ⟨rfl, h1, h2, h3, h4, htermf, h5⟩
            (init_entries_ok_forall₂ header full rest rest' hr)

/-- A failed validation identifies either a terminal with a production or
an undefined token, together with the exact message raised. -/
theorem init_entries_error (header : Header) (full : ExpMap) :
    ∀ (l : ExpMap) (msg : ParsegenError), init_entries header full l = .error msg →
      (∃ p ∈ l, dictHasKey header.terminals p.1 = true ∧
        msg = .grammarError ("expansion for nonterminal " ++ p.1)) ∨
      (∃ p ∈ l, ∃ exp ∈ p.2.expansions, ∃ e ∈ exp,
        dictHasKey header.terminals e = false ∧ mapHasKey full e = false ∧
        msg = .grammarError (e ++ " is not defined as a terminal or nonterminal"))
  | [], msg, h => by cases h
  | (name, symbol) :: rest, msg, h => by
    unfold init_entries at h
    by_cases hterm : dictHasKey header.terminals name = true
    · rw [if_pos hterm] at h
      injection h with hmsg
      subst hmsg
      exact Or.inl ⟨(name, symbol), List.mem_cons_self _ _, hterm, rfl⟩
    · rw [if_neg hterm] at h
      rcases hf : symbol.expansions.foldlM (init_expansion header full) symbol
        with m | sym'
      · rw [hf, except_bind_error] at h
        injection h with hmsg
        subst hmsg
        obtain ⟨exp, hexp, e, he, h1, h2, h3⟩ :=
          init_foldlM_error header full symbol.expansions symbol _ hf
        exact Or.inr ⟨(name, symbol), List.mem_cons_self _ _, exp, hexp, e, he, h1, h2, h3⟩
      · rw [hf, except_bind_ok] at h
        rcases hr : init_entries header full rest with m | rest'
        · rw [hr, except_bind_error] at h
          injection h with hmsg
          subst hmsg
          rcases init_entries_error header full rest _ hr with
            ⟨p, hp, ha, hb⟩ | ⟨p, hp, exp, hexp, e, he, h1, h2, h3⟩
          · exact Or.inl ⟨p, List.mem_cons_of_mem _ hp, ha, hb⟩
          · exact Or.inr ⟨p, List.mem_cons_of_mem _ hp, exp, hexp, e, he, h1, h2, h3⟩
        · rw [hr, except_bind_ok] at h
          cases h

/-- Validation succeeds on every well-formed grammar. -/
theorem init_entries_ok_of_valid (header : Header) (full : ExpMap) :
    ∀ (l : ExpMap),
      (∀ p ∈ l, dictHasKey header.terminals p.1 = false ∧
        ∀ exp ∈ p.2.expansions, ∀ e ∈ exp,
          dictHasKey header.terminals e = true ∨ mapHasKey full e = true) →
      ∃ st', init_entries header full l = .ok st'
  | [], _ => ⟨[], rfl⟩
  | (name, symbol) :: rest, hval => by
    unfold init_entries
    have hv := hval (name, symbol) (List.mem_cons_self _ _)
    rw [if_neg (by rw [hv.1]; exact Bool.false_ne_true)]
    obtain ⟨sym', hf⟩ := init_foldlM_of_checks header full symbol.expansions symbol
      (fun exp hexp => (check_tokens_ok_iff header full exp).2 (hv.2 exp hexp))
    rw [hf, except_bind_ok]
    obtain ⟨rest', hr⟩ := init_entries_ok_of_valid header full rest
      (fun p hp => hval p (List.mem_cons_of_mem _ hp))
    rw [hr, except_bind_ok]
    exact ⟨(name, sym') :: rest', rfl⟩

theorem compute_sets_ok {header : Header} {exps r : ExpMap}
    (h : compute_sets_for_expansions header exps = .ok r) :
    ∃ st', initialise_expansions_state header exps = .ok st' ∧
      r = compute_loop header (compute_fuel header st') st' := by
  unfold compute_sets_for_expansions at h
  rcases hi : initialise_expansions_state header exps with msg | st'
  · rw [hi, except_bind_error] at h
    cases h
  · rw [hi, except_bind_ok] at h
    injection h with hr
    exact ⟨st', rfl, hr.symm⟩

theorem compute_sets_error {header : Header} {exps : ExpMap} {msg : ParsegenError}
    (h : compute_sets_for_expansions header exps = .error msg) :
    initialise_expansions_state header exps = .error msg := by
  unfold compute_sets_for_expansions at h
  rcases hi : initialise_expansions_state header exps with m | st'
  · rw [hi, except_bind_error] at h
    injection h with hm
    subst hm
    rfl
  · rw [hi, except_bind_ok] at h
    cases h

theorem parse_buffer_eq_of_three {buffer s0 s1 s2 : String}
    (hsp : pySplitOn buffer "%%" = [s0, s1, s2]) :
    parse_buffer buffer =
      (compute_sets_for_expansions (process_header s0) (process_expansions s1) >>=
        fun exps => Except.ok (process_header s0, exps, s2)) := by
  unfold parse_buffer
  rw [hsp]
  rfl

/-- C2: for every input buffer, `parse_buffer` raises a structural
`ParseError` exactly when splitting the buffer on the literal delimiter
`%%` yields a number of parts different from three, and the error message
reports the expected count (3) together with the observed number of parts;
with exactly three parts no `ParseError` is raised. -/
theorem C2_parse_error_iff (buffer : String) :
    (is_parse_error (parse_buffer buffer) = true ↔
      (pySplitOn buffer "%%").length ≠ 3) ∧
    (∀ msg, parse_buffer buffer = .error (.parseError msg) →
      msg = "expected 3 sections but found " ++
        toString (pySplitOn buffer "%%").length) := by
  rcases hsp : pySplitOn buffer "%%" with _ | ⟨a, _ | ⟨b, _ | ⟨c, _ | ⟨d, tl⟩⟩⟩⟩
  · have hp : parse_buffer buffer = .error (.parseError
        ("expected 3 sections but found " ++ toString (List.length ([] : List String)))) := by
      unfold parse_buffer
      rw [hsp]
    rw [hp]
    exact ⟨by simp [is_parse_error], fun msg hmsg => by
      injection hmsg with h'
      injection h' with h''
      exact h''.symm⟩
  · have hp : parse_buffer buffer = .error (.parseError
        ("expected 3 sections but found " ++ toString [a].length)) := by
      unfold parse_buffer
      rw [hsp]
    rw [hp]
    exact ⟨by simp [is_parse_error], fun msg hmsg => by
      injection hmsg with h'
      injection h' with h''
      exact h''.symm⟩
  · have hp : parse_buffer buffer = .error (.parseError
        ("expected 3 sections but found " ++ toString [a, b].length)) := by
      unfold parse_buffer
      rw [hsp]
    rw [hp]
    exact ⟨by simp [is_parse_error], fun msg hmsg => by
      injection hmsg with h'
      injection h' with h''
      exact h''.symm⟩
  · have hp := parse_buffer_eq_of_three hsp
    rw [hp]
    constructor
    · rcases hcs : compute_sets_for_expansions (process_header a) (process_expansions b)
        with msg | r
      · rw [except_bind_error]
        have hini := compute_sets_error hcs
        rcases init_entries_error (process_header a) (process_expansions b)
            (process_expansions b) msg hini with ⟨_, _, _, hmsg⟩ | ⟨_, _, _, _, _, _, _, _, hmsg⟩
        · subst hmsg
          simp [is_parse_error]
        · subst hmsg
          simp [is_parse_error]
      · rw [except_bind_ok]
        simp [is_parse_error]
    · intro msg hmsg
      rcases hcs : compute_sets_for_expansions (process_header a) (process_expansions b)
        with m | r
      · rw [hcs, except_bind_error] at hmsg
        have hini := compute_sets_error hcs
        injection hmsg with hm
        subst hm
        rcases init_entries_error (process_header a) (process_expansions b)
            (process_expansions b) _ hini with ⟨_, _, _, hmsg'⟩ | ⟨_, _, _, _, _, _, _, _, hmsg'⟩
        · cases hmsg'
        · cases hmsg'
      · rw [hcs, except_bind_ok] at hmsg
        cases hmsg
  · have hp : parse_buffer buffer = .error (.parseError
        ("expected 3 sections but found " ++ toString (a :: b :: c :: d :: tl).length)) := by
      unfold parse_buffer
      rw [hsp]
    rw [hp]
    refine ⟨by simp [is_parse_error], fun msg hmsg => by
      injection hmsg with h'
      injection h' with h''
      exact h''.symm⟩

/-- Witness for C2 at the concrete buffer " %% " (two parts). -/
theorem C2_parse_error_iff_witness :
    is_parse_error (parse_buffer " %% ") = true ∧
    ("expected 3 sections but found 2" =
      "expected 3 sections but found " ++ toString (pySplitOn " %% " "%%").length) :=
  ⟨(C2_parse_error_iff " %% ").1.mpr (by decide),
   (C2_parse_error_iff " %% ").2 "expected 3 sections but found 2" (by decide)⟩

theorem forall₂_exists_right {α β : Type} {r : α → β → Prop} :
    ∀ {l : List α} {l' : List β}, List.Forall₂ r l l' → ∀ a ∈ l, ∃ b ∈ l', r a b := by
  intro l l' h
  induction h with
  | nil => exact fun a ha => absurd ha (List.not_mem_nil a)
  | cons hpq _ ih =>
    intro a ha
    rcases List.mem_cons.1 ha with rfl | ha
    · exact ⟨_, List.mem_cons_self _ _, hpq⟩
    · obtain ⟨b, hb, hr⟩ := ih a ha
      exact ⟨b, List.mem_cons_of_mem _ hb, hr⟩

/-- C3: `parse_buffer` raises a `GrammarError` exactly when some name with
a production also appears as a terminal name, or some token referenced in
some expansion is neither a terminal nor a nonterminal; the message names
the offending name and distinguishes the two conditions, and when a
`GrammarError` is raised no header/symbol-table/user-code triple is
returned. -/
theorem C3_grammar_error_iff (buffer s0 s1 s2 : String)
    (hsp : pySplitOn buffer "%%" = [s0, s1, s2]) :
    (is_grammar_error (parse_buffer buffer) = true ↔
      ((∃ p ∈ process_expansions s1,
          dictHasKey (process_header s0).terminals p.1 = true) ∨
       (∃ p ∈ process_expansions s1, ∃ exp ∈ p.2.expansions, ∃ e ∈ exp,
          dictHasKey (process_header s0).terminals e = false ∧
          mapHasKey (process_expansions s1) e = false))) ∧
    (∀ msg, parse_buffer buffer = .error (.grammarError msg) →
      (∃ p ∈ process_expansions s1,
        dictHasKey (process_header s0).terminals p.1 = true ∧
        msg = "expansion for nonterminal " ++ p.1) ∨
      (∃ e, dictHasKey (process_header s0).terminals e = false ∧
        mapHasKey (process_expansions s1) e = false ∧
        (∃ p ∈ process_expansions s1, ∃ exp ∈ p.2.expansions, e ∈ exp) ∧
        msg = e ++ " is not defined as a terminal or nonterminal")) ∧
    (is_grammar_error (parse_buffer buffer) = true →
      ∀ r, parse_buffer buffer ≠ .ok r) := by
  rw [parse_buffer_eq_of_three hsp]
  rcases hcs : compute_sets_for_expansions (process_header s0) (process_expansions s1)
    with msg | r
  · rw [except_bind_error]
    have hini := compute_sets_error hcs
    have herr := init_entries_error (process_header s0) (process_expansions s1)
      (process_expansions s1) msg hini
    refine ⟨?_, ?_, ?_⟩
    · constructor
      · intro _
        rcases herr with ⟨p, hp, hterm, _⟩ | ⟨p, hp, exp, hexp, e, he, h1, h2, _⟩
        · exact Or.inl ⟨p, hp, hterm⟩
        · exact Or.inr ⟨p, hp, exp, hexp, e, he, h1, h2⟩
      · intro _
        rcases herr with ⟨_, _, _, hmsg⟩ | ⟨_, _, _, _, _, _, _, _, hmsg⟩
        · subst hmsg
          rfl
        · subst hmsg
          rfl
    · intro m hm
      injection hm with hm'
      rcases herr with ⟨p, hp, hterm, hmsg⟩ | ⟨p, hp, exp, hexp, e, he, h1, h2, hmsg⟩
      · subst hm'
        injection hmsg with hmm
        exact Or.inl ⟨p, hp, hterm, hmm⟩
      · subst hm'
        injection hmsg with hmm
        exact Or.inr ⟨e, h1, h2, ⟨p, hp, exp, hexp, he⟩, hmm⟩
    · intro _ r hr
      cases hr
  · rw [except_bind_ok]
    obtain ⟨st', hini, _⟩ := compute_sets_ok hcs
    have hrel := init_entries_ok_forall₂ (process_header s0) (process_expansions s1)
      (process_expansions s1) st' hini
    refine ⟨?_, ?_, ?_⟩
    · constructor
      · intro h
        simp [is_grammar_error] at h
      · intro h
        exfalso
        rcases h with ⟨p, hp, hterm⟩ | ⟨p, hp, exp, hexp, e, he, h1, h2⟩
        · obtain ⟨q, _, hr⟩ := forall₂_exists_right hrel p hp
          rw [hr.2.2.2.2.2.1] at hterm
          cases hterm
        · obtain ⟨q, _, hr⟩ := forall₂_exists_right hrel p hp
          have hck := hr.2.2.2.2.2.2 exp hexp
          rcases (check_tokens_ok_iff _ _ exp).1 hck e he with h' | h'
          · rw [h1] at h'
            cases h'
          · rw [h2] at h'
            cases h'
    · intro m hm
      cases hm
    · intro h
      simp [is_grammar_error] at h

/-- Witness for C3 at the concrete buffer " %% main := TOKEN %% ", whose
single expansion references the undefined token TOKEN. -/
theorem C3_grammar_error_iff_witness :
    is_grammar_error (parse_buffer " %% main := TOKEN %% ") = true :=
  (C3_grammar_error_iff " %% main := TOKEN %% " " " " main := TOKEN " " "
    (by decide)).1.mpr (by decide)

/-- C6: every mutating operation on a `Symbol` during an analysis run —
`add_expansion`, `add_first`, `add_follow`, `set_nullable`, and each
fixpoint pass — accumulates monotonically: FIRST and FOLLOW sets only
grow, nullability never reverts from true to false, and no expansion is
ever removed. -/
theorem C6_monotone_accumulation :
    (∀ (sym : Symbol) (exp : List String),
      sym.first ⊆ (sym.add_expansion exp).first ∧
      sym.follow ⊆ (sym.add_expansion exp).follow ∧
      (sym.nullable = true → (sym.add_expansion exp).nullable = true) ∧
      (∀ e ∈ sym.expansions, e ∈ (sym.add_expansion exp).expansions)) ∧
    (∀ (sym : Symbol) (v : Finset String),
      sym.first ⊆ (sym.add_first v).first ∧
      sym.follow ⊆ (sym.add_first v).follow ∧
      (sym.nullable = true → (sym.add_first v).nullable = true) ∧
      (∀ e ∈ sym.expansions, e ∈ (sym.add_first v).expansions)) ∧
    (∀ (sym : Symbol) (v : Finset String),
      sym.first ⊆ (sym.add_follow v).first ∧
      sym.follow ⊆ (sym.add_follow v).follow ∧
      (sym.nullable = true → (sym.add_follow v).nullable = true) ∧
      (∀ e ∈ sym.expansions, e ∈ (sym.add_follow v).expansions)) ∧
    (∀ sym : Symbol,
      sym.first ⊆ sym.set_nullable.first ∧
      sym.follow ⊆ sym.set_nullable.follow ∧
      (sym.nullable = true → sym.set_nullable.nullable = true) ∧
      (∀ e ∈ sym.expansions, e ∈ sym.set_nullable.expansions)) ∧
    (∀ (header : Header) (st : ExpMap), (st.map Prod.fst).Nodup →
      ∀ name sym, (name, sym) ∈ st →
        ∃ sym', (name, sym') ∈ (compute_pass header st).1 ∧
          sym.first ⊆ sym'.first ∧ sym.follow ⊆ sym'.follow ∧
          (sym.nullable = true → sym'.nullable = true) ∧
          ∀ e ∈ sym.expansions, e ∈ sym'.expansions) := by
  refine ⟨?_, ?_, ?_, ?_, ?_⟩
  · intro sym exp
    unfold Symbol.add_expansion
    by_cases he : exp.isEmpty = true
    · rw [if_pos he]
      exact ⟨Finset.Subset.refl _, Finset.Subset.refl _, fun _ => rfl,
        fun e hee => List.mem_append.2 (Or.inl hee)⟩
    · rw [if_neg he]
      exact ⟨Finset.Subset.refl _, Finset.Subset.refl _, fun h => h,
        fun e hee => List.mem_append.2 (Or.inl hee)⟩
  · intro sym v
    exact ⟨Finset.subset_union_left, Finset.Subset.refl _, fun h => h, fun e hee => hee⟩
  · intro sym v
    exact ⟨Finset.Subset.refl _, Finset.subset_union_left, fun h => h, fun e hee => hee⟩
  · intro sym
    exact ⟨Finset.Subset.refl _, Finset.Subset.refl _, fun _ => rfl, fun e hee => hee⟩
  · intro header st hnd name sym hmem
    obtain ⟨p1, _, _, _⟩ := compute_pass_spec header st hnd
    obtain ⟨sym', hlook, hle⟩ :=
      p1.lookup name sym (mem_lookupSym st hnd name sym hmem)
    refine ⟨sym', lookupSym_mem _ name sym' hlook, hle.2.2.1, ?_, hle.2.2.2, ?_⟩
    · rw [hle.2.1]
    · intro e hee
      rw [← hle.1]
      exact hee

/-- Witness for C6's pass clause at a one-symbol grammar state. -/
theorem C6_monotone_accumulation_witness :
    ∃ sym', (("s", sym') : String × Symbol) ∈
        (compute_pass ⟨[("T", "tok")], []⟩ [("s", ⟨[["T"]], false, ∅, ∅⟩)]).1 ∧
      (⟨[["T"]], false, ∅, ∅⟩ : Symbol).first ⊆ sym'.first ∧
      (⟨[["T"]], false, ∅, ∅⟩ : Symbol).follow ⊆ sym'.follow ∧
      ((⟨[["T"]], false, ∅, ∅⟩ : Symbol).nullable = true → sym'.nullable = true) ∧
      ∀ e ∈ (⟨[["T"]], false, ∅, ∅⟩ : Symbol).expansions, e ∈ sym'.expansions :=
  C6_monotone_accumulation.2.2.2.2 ⟨[("T", "tok")], []⟩
    [("s", ⟨[["T"]], false, ∅, ∅⟩)] (by decide) "s" ⟨[["T"]], false, ∅, ∅⟩ (by decide)

theorem body_fold_lines (header : Header) :
    ∀ (expansion : List String) (ws ps : List String) (n : Nat),
      ∀ l ∈ (expansion.foldl (body_step header) (ws, ps, n)).1,
        l ∈ ws ∨ ∃ s, l = "\t\t" ++ s
  | [], ws, ps, n => fun l hl => Or.inl hl
  | sym :: rest, ws, ps, n => by
    rw [List.foldl_cons]
    intro l hl
    unfold body_step at hl
    by_cases ht : dictHasKey header.terminals sym = true
    · rw [if_pos ht] at hl
      rcases body_fold_lines header rest _ _ _ l hl with hws | hs
      · rcases List.mem_append.1 hws with hws | hws
        · exact Or.inl hws
        · rw [List.mem_singleton] at hws
          refine Or.inr ⟨"if (!eat_terminal(" ++ dictGetD header.terminals sym ""
            ++ "))\n\t\t\tgoto error;\n", ?_⟩
          rw [hws]
          rfl
      · exact Or.inr hs
    · rw [if_neg ht] at hl
      rcases body_fold_lines header rest _ _ _ l hl with hws | hs
      · rcases List.mem_append.1 hws with hws | hws
        · exact Or.inl hws
        · rw [List.mem_singleton] at hws
          refine Or.inr ⟨"nodes[" ++ toString n ++ "] = " ++ sym ++ "();\n", ?_⟩
          rw [hws]
          rfl
      · exact Or.inr hs

/-- C7: for every non-empty expansion, the emitter's predicting terminal
set is the head token itself when it is a terminal and otherwise exactly
the FIRST set of the head nonterminal — with no union over later tokens —
and the emitted body opens with exactly one `case` label per terminal of
that predicting set, followed only by body lines. -/
theorem C7_predicting_sets (header : Header) (expansions : ExpMap) (name e0 : String)
    (rest : List String) :
    predict_terms header expansions (e0 :: rest) =
      (if dictHasKey header.terminals e0 then {e0}
       else ((lookupSym expansions e0).getD Symbol.mkEmpty).first) ∧
    ∃ body_rest,
      write_body_for_expansion header expansions name (e0 :: rest) =
        ((predict_terms header expansions (e0 :: rest)).sort (fun a b => a ≤ b)).map
          (fun term => "\tcase " ++ dictGetD header.terminals term "" ++ ":\n") ++
          body_rest ∧
      (((predict_terms header expansions (e0 :: rest)).sort (fun a b => a ≤ b)).map
          (fun term => "\tcase " ++ dictGetD header.terminals term "" ++ ":\n")).length =
        (predict_terms header expansions (e0 :: rest)).card ∧
      ∀ l ∈ body_rest, ∃ s, l = "\t\t" ++ s := by
  refine ⟨rfl, ⟨((e0 :: rest).foldl (body_step header) ([], [], 0)).1 ++
    ["\t\ttoken_action_" ++ name ++ "(" ++
      strJoin ", " ((e0 :: rest).foldl (body_step header) ([], [], 0)).2.1 ++ ");\n",
     "\t\tbreak;\n\n"], ?_, ?_, ?_⟩⟩
  · unfold write_body_for_expansion
    rw [if_neg (by exact Bool.false_ne_true : ¬(e0 :: rest).isEmpty = true)]
    rw [List.append_assoc]
  · rw [List.length_map, Finset.length_sort]
  · intro l hl
    rcases List.mem_append.1 hl with hb | hb
    · rcases body_fold_lines header (e0 :: rest) [] [] 0 l hb with hws | hs
      · exact absurd hws (List.not_mem_nil l)
      · exact hs
    · rcases List.mem_cons.1 hb with rfl | hb
      · exact ⟨"token_action_" ++ name ++ "(" ++
          strJoin ", " ((e0 :: rest).foldl (body_step header) ([], [], 0)).2.1 ++ ");\n", rfl⟩
      · rw [List.mem_singleton] at hb
        subst hb
        exact ⟨"break;\n\n", rfl⟩

theorem get_counts_filter (header : Header) :
    ∀ (l : List (List String)) (acc : Nat),
      (l.filter (fun e => !e.isEmpty)).foldl
        (fun node_count expansion =>
          let n := (expansion.filter (fun e => ¬ dictHasKey header.terminals e)).length
          if node_count < n then n else node_count) acc =
      l.foldl
        (fun node_count expansion =>
          let n := (expansion.filter (fun e => ¬ dictHasKey header.terminals e)).length
          if node_count < n then n else node_count) acc
  | [], acc => rfl
  | exp :: rest, acc => by
    by_cases he : exp.isEmpty = true
    · have hexp : exp = [] := by
        cases exp
        · rfl
        · cases he
      subst hexp
      rw [List.filter_cons]
      simp only [List.isEmpty_nil, Bool.not_true, Bool.false_eq_true, if_false]
      rw [List.foldl_cons]
      have hstep : (if acc < (List.filter
          (fun e => ¬ dictHasKey header.terminals e = true) []).length
          then (List.filter (fun e => ¬ dictHasKey header.terminals e = true) []).length
          else acc) = acc := by
        simp
      rw [get_counts_filter header rest acc]
      simp
    · rw [List.filter_cons]
      have hne : (!exp.isEmpty) = true := by
        rcases Bool.eq_false_or_eq_true exp.isEmpty with h | h
        · exact absurd h he
        · rw [h]
          rfl
      rw [if_pos hne, List.foldl_cons, List.foldl_cons]
      exact get_counts_filter header rest _

theorem flatMap_filter_nonempty {α : Type} (f : List String → List α)
    (hf : f [] = []) :
    ∀ (l : List (List String)),
      (l.filter (fun e => !e.isEmpty)).flatMap f = l.flatMap f
  | [] => rfl
  | exp :: rest => by
    by_cases he : exp.isEmpty = true
    · have hexp : exp = [] := by
        cases exp
        · rfl
        · cases he
      subst hexp
      rw [List.filter_cons]
      simp only [List.isEmpty_nil, Bool.not_true, Bool.false_eq_true, if_false]
      rw [List.flatMap_cons, hf, List.nil_append]
      exact flatMap_filter_nonempty f hf rest
    · have hne : (!exp.isEmpty) = true := by
        rcases Bool.eq_false_or_eq_true exp.isEmpty with h | h
        · exact absurd h he
        · rw [h]
          rfl
      rw [List.filter_cons, if_pos hne, List.flatMap_cons, List.flatMap_cons,
        flatMap_filter_nonempty f hf rest]

/-- C10: the emitter writes nothing at all for an empty (epsilon)
expansion — no case label, no consumption or recursion step, no user
action — so removing the epsilon alternatives of a symbol leaves the
emitted dispatch function unchanged. -/
theorem C10_epsilon_invisible (header : Header) (expansions : ExpMap) (name : String) :
    write_body_for_expansion header expansions name [] = [] ∧
    ∀ symbol : Symbol,
      write_symbol_function header expansions name symbol =
        write_symbol_function header expansions name
          ⟨symbol.expansions.filter (fun e => !e.isEmpty), symbol.nullable,
            symbol.first, symbol.follow⟩ := by
  constructor
  · rfl
  · intro symbol
    unfold write_symbol_function
    have hcounts : get_counts header symbol =
        get_counts header ⟨symbol.expansions.filter (fun e => !e.isEmpty),
          symbol.nullable, symbol.first, symbol.follow⟩ := by
      unfold get_counts
      exact (get_counts_filter header symbol.expansions 0).symm
    have hbodies : symbol.expansions.flatMap
          (write_body_for_expansion header expansions name) =
        (symbol.expansions.filter (fun e => !e.isEmpty)).flatMap
          (write_body_for_expansion header expansions name) :=
      (flatMap_filter_nonempty _ rfl symbol.expansions).symm
    unfold write_symbol_function_begin
    rw [hcounts, hbodies]

theorem dropWhile_dropWhile (p : Char → Bool) :
    ∀ (l : List Char), List.dropWhile p (List.dropWhile p l) = List.dropWhile p l
  | [] => rfl
  | x :: xs => by
    rw [List.dropWhile_cons]
    by_cases h : p x = true
    · rw [if_pos h]
      exact dropWhile_dropWhile p xs
    · rw [if_neg h]
      rw [List.dropWhile_cons, if_neg h]

theorem dropWhile_exists_append (p : Char → Bool) :
    ∀ (l : List Char), ∃ t, t ++ List.dropWhile p l = l
  | [] => ⟨[], rfl⟩
  | x :: xs => by
    rw [List.dropWhile_cons]
    by_cases h : p x = true
    · rw [if_pos h]
      obtain ⟨t, ht⟩ := dropWhile_exists_append p xs
      exact ⟨x :: t, by rw [List.cons_append, ht]⟩
    · rw [if_neg h]
      exact ⟨[], rfl⟩

theorem length_dropWhile_le (p : Char → Bool) :
    ∀ (l : List Char), (List.dropWhile p l).length ≤ l.length
  | [] => Nat.le.refl
  | x :: xs => by
    rw [List.dropWhile_cons]
    by_cases h : p x = true
    · rw [if_pos h]
      exact (length_dropWhile_le p xs).trans (Nat.le_succ _)
    · rw [if_neg h]

theorem head_false_of_dropWhile_self {p : Char → Bool} {y : Char} {ys : List Char}
    (h : List.dropWhile p (y :: ys) = y :: ys) : p y = false := by
  rcases Bool.eq_false_or_eq_true (p y) with hp | hp
  · rw [List.dropWhile_cons, if_pos hp] at h
    have hlen := length_dropWhile_le p ys
    rw [h] at hlen
    simp at hlen
  · exact hp

theorem pyStrip_idem (s : String) : pyStrip (pyStrip s) = pyStrip s := by
  unfold pyStrip
  have htl : ∀ (l : List Char), (String.mk l).toList = l := fun _ => rfl
  rw [htl]
  have hXclean := dropWhile_dropWhile Char.isWhitespace s.toList
  obtain ⟨t, ht⟩ := dropWhile_exists_append Char.isWhitespace
    (List.dropWhile Char.isWhitespace s.toList).reverse
  have hXeq : List.dropWhile Char.isWhitespace s.toList =
      (List.dropWhile Char.isWhitespace
        (List.dropWhile Char.isWhitespace s.toList).reverse).reverse ++ t.reverse := by
    have hr := congrArg List.reverse ht
    rw [List.reverse_append, List.reverse_reverse] at hr
    exact hr.symm
  have h1 : List.dropWhile Char.isWhitespace
      (List.dropWhile Char.isWhitespace
        (List.dropWhile Char.isWhitespace s.toList).reverse).reverse =
      (List.dropWhile Char.isWhitespace
        (List.dropWhile Char.isWhitespace s.toList).reverse).reverse := by
    rcases hB : (List.dropWhile Char.isWhitespace
        (List.dropWhile Char.isWhitespace s.toList).reverse).reverse with _ | ⟨y, ys⟩
    · rfl
    · have hX : List.dropWhile Char.isWhitespace s.toList = y :: (ys ++ t.reverse) := by
        rw [hXeq, hB]
        rfl
      have hpy : Char.isWhitespace y = false := by
        rw [hX] at hXclean
        exact head_false_of_dropWhile_self hXclean
      rw [List.dropWhile_cons, if_neg (by rw [hpy]; exact Bool.false_ne_true)]
  rw [h1, List.reverse_reverse, dropWhile_dropWhile]

theorem findSepChars_none (c : Char) :
    ∀ (fuel : Nat) (acc xs : List Char), (∀ x ∈ xs, x ≠ c) →
      findSepChars [c] fuel acc xs = none
  | 0, acc, [] => fun _ => rfl
  | fuel + 1, acc, [] => fun _ => rfl
  | 0, acc, x :: xs => fun _ => rfl
  | fuel + 1, acc, x :: xs => fun h => by
    unfold findSepChars
    have hpre : isPrefixChars [c] (x :: xs) = false := by
      unfold isPrefixChars
      rw [decide_eq_false (fun hc => h x (List.mem_cons_self x xs) hc.symm)]
      rfl
    rw [if_neg (by rw [hpre]; exact Bool.false_ne_true)]
    exact findSepChars_none c fuel (x :: acc) xs
      (fun y hy => h y (List.mem_cons_of_mem x hy))

theorem pyPartition_no_sep {s : String} (h : ∀ x ∈ s.toList, x ≠ '=') :
    pyPartition s "=" = (s, "", "") := by
  unfold pyPartition
  rw [show ("=" : String).toList = ['='] from rfl,
    findSepChars_none '=' s.toList.length [] s.toList h]

theorem kv_no_sep {s : String} (h : ∀ x ∈ s.toList, x ≠ '=') :
    kv_with_sep s "=" = (pyStrip s, "") := by
  unfold kv_with_sep
  rw [pyPartition_no_sep h]
  rfl

/-- C9: the header processor never fails; a non-blank, comment-stripped
header line with no `=` character is stored as a key equal to the whole
trimmed line (after stripping the `%` marker for option lines) mapped to
the empty string — in the options mapping for `%` lines and in the
terminal mapping otherwise. -/
theorem C9_malformed_header_line (raw : String) (terms opts : StrDict) :
    pyStrip (pyPartition raw "#").1 ≠ "" →
    (∀ x ∈ (pyStrip (pyPartition raw "#").1).toList, x ≠ '=') →
    (kv_with_sep (pyStrip (pyPartition raw "#").1) "=" =
      (pyStrip (pyPartition raw "#").1, "")) ∧
    (strTake (pyStrip (pyPartition raw "#").1) 1 = "%" →
      (if strTake (pyStrip (pyPartition raw "#").1) 1 = "%" then
        (terms, add_opt_to_dict (strDrop (pyStrip (pyPartition raw "#").1) 1) opts "=")
       else (add_opt_to_dict (pyStrip (pyPartition raw "#").1) terms "=", opts)) =
      (terms, dictInsert opts
        (pyStrip (strDrop (pyStrip (pyPartition raw "#").1) 1)) "")) ∧
    (strTake (pyStrip (pyPartition raw "#").1) 1 ≠ "%" →
      (if strTake (pyStrip (pyPartition raw "#").1) 1 = "%" then
        (terms, add_opt_to_dict (strDrop (pyStrip (pyPartition raw "#").1) 1) opts "=")
       else (add_opt_to_dict (pyStrip (pyPartition raw "#").1) terms "=", opts)) =
      (dictInsert terms (pyStrip (pyPartition raw "#").1) "", opts)) := by
  intro _ hnoeq
  have hkv : kv_with_sep (pyStrip (pyPartition raw "#").1) "=" =
      (pyStrip (pyPartition raw "#").1, "") := by
    rw [kv_no_sep hnoeq, pyStrip_idem]
  refine ⟨hkv, ?_, ?_⟩
  · intro hpc
    rw [if_pos hpc]
    have hdrop : ∀ x ∈ (strDrop (pyStrip (pyPartition raw "#").1) 1).toList, x ≠ '=' := by
      intro x hx
      apply hnoeq
      exact List.mem_of_mem_drop hx
    unfold add_opt_to_dict
    rw [kv_no_sep hdrop]
  · intro hpc
    rw [if_neg hpc]
    unfold add_opt_to_dict
    rw [hkv]

/-- Witness for C9 at the concrete header line " FUZZBAZ " (no `=`). -/
theorem C9_malformed_header_line_witness :
    (if strTake (pyStrip (pyPartition " FUZZBAZ " "#").1) 1 = "%" then
      (([] : StrDict), add_opt_to_dict (strDrop (pyStrip (pyPartition " FUZZBAZ " "#").1) 1) [] "=")
     else (add_opt_to_dict (pyStrip (pyPartition " FUZZBAZ " "#").1) [] "=", [])) =
    (dictInsert [] (pyStrip (pyPartition " FUZZBAZ " "#").1) "", []) :=
  (C9_malformed_header_line " FUZZBAZ " [] [] (by decide) (by decide)).2.2 (by decide)

theorem forall₂_exists_left {α β : Type} {r : α → β → Prop} :
    ∀ {l : List α} {l' : List β}, List.Forall₂ r l l' → ∀ b ∈ l', ∃ a ∈ l, r a b := by
  intro l l' h
  induction h with
  | nil => exact fun b hb => absurd hb (List.not_mem_nil b)
  | cons hpq _ ih =>
    intro b hb
    rcases List.mem_cons.1 hb with rfl | hb
    · exact ⟨_, List.mem_cons_self _ _, hpq⟩
    · obtain ⟨a, ha, hr⟩ := ih b hb
      exact ⟨a, List.mem_cons_of_mem _ ha, hr⟩

theorem forall₂_fst_eq {r : (String × Symbol) → (String × Symbol) → Prop}
    (hc : ∀ p q, r p q → p.1 = q.1) :
    ∀ {l l' : ExpMap}, List.Forall₂ r l l' → l.map Prod.fst = l'.map Prod.fst := by
  intro l l' h
  induction h with
  | nil => rfl
  | cons hpq _ ih =>
    simp only [List.map_cons, ih]
    rw [hc _ _ hpq]

theorem parse_buffer_ok_split {buffer : String} {r : Header × ExpMap × String}
    (h : parse_buffer buffer = .ok r) :
    ∃ s0 s1 s2, pySplitOn buffer "%%" = [s0, s1, s2] ∧
      r.1 = process_header s0 ∧ r.2.2 = s2 ∧
      compute_sets_for_expansions (process_header s0) (process_expansions s1) =
        .ok r.2.1 := by
  rcases hsp : pySplitOn buffer "%%" with _ | ⟨a, _ | ⟨b, _ | ⟨c, _ | ⟨d, tl⟩⟩⟩⟩
  · unfold parse_buffer at h
    rw [hsp] at h
    cases h
  · unfold parse_buffer at h
    rw [hsp] at h
    cases h
  · unfold parse_buffer at h
    rw [hsp] at h
    cases h
  · rw [parse_buffer_eq_of_three hsp] at h
    rcases hcs : compute_sets_for_expansions (process_header a) (process_expansions b)
      with msg | r'
    · rw [hcs, except_bind_error] at h
      cases h
    · rw [hcs, except_bind_ok] at h
      injection h with h'
      subst h'
      exact ⟨a, b, c, rfl, rfl, rfl, hcs⟩
  · unfold parse_buffer at h
    rw [hsp] at h
    cases h

/-- Everything a successful `parse_buffer` guarantees about the returned
symbol table: distinct keys, stability under one more pass, non-empty
expansion lists, soundness of the FIRST sets and nullability flags with
respect to the grammar's derivations, justified nullability, and untouched
(empty) FOLLOW sets. -/
theorem parse_ok_facts {buffer : String} {hd : Header} {exps : ExpMap} {u : String}
    (h : parse_buffer buffer = .ok (hd, exps, u)) :
    (exps.map Prod.fst).Nodup ∧ Stable hd exps ∧ NonEmptyExps exps ∧
    SoundState hd (gOf exps) exps ∧ NullState hd (gOf exps) exps ∧
    (∀ k a, lookupSym exps k = some a → a.follow = ∅) := by
  obtain ⟨s0, s1, s2, hsp, hhd0, hu0, hcs0⟩ := parse_buffer_ok_split h
  have hhd : hd = process_header s0 := hhd0
  have hcs : compute_sets_for_expansions (process_header s0) (process_expansions s1) =
      .ok exps := hcs0
  obtain ⟨st', hini, hloop0⟩ := compute_sets_ok hcs
  have hloop : exps = compute_loop (process_header s0)
      (compute_fuel (process_header s0) st') st' := hloop0
  obtain ⟨hpeNd, hpeInv⟩ := process_expansions_invariant s1
  have hrel := init_entries_ok_forall₂ (process_header s0) (process_expansions s1)
    (process_expansions s1) st' hini
  have hkeys' : (process_expansions s1).map Prod.fst = st'.map Prod.fst :=
    forall₂_fst_eq (fun p q hr => hr.1) hrel
  have hnd' : (st'.map Prod.fst).Nodup := by
    rw [← hkeys']
    exact hpeNd
  have hstfacts : ∀ k a, lookupSym st' k = some a →
      a.expansions ≠ [] ∧ a.follow = ∅ ∧
      (a.nullable = true ↔ [] ∈ a.expansions) ∧
      (∀ t ∈ a.first, dictHasKey (process_header s0).terminals t = true ∧
        ∃ r, (t :: r) ∈ a.expansions) := by
    intro k a ha
    obtain ⟨p, hp, hr⟩ := forall₂_exists_left hrel (k, a) (lookupSym_mem st' k a ha)
    obtain ⟨hpe1, hpe2, hpe3, hpe4⟩ := hpeInv p hp
    refine ⟨hr.2.1 ▸ hpe4, hr.2.2.1 ▸ hpe2, ?_, ?_⟩
    · rw [hr.2.2.2.1, hr.2.1]
      exact hpe3
    · intro t ht
      rcases hr.2.2.2.2.1 t ht with htp | ⟨hterm, rr, hrr⟩
      · rw [hpe1] at htp
        exact absurd htp (Finset.not_mem_empty t)
      · exact ⟨hterm, rr, hr.2.1 ▸ hrr⟩
  have hneSt : NonEmptyExps st' := fun k a ha => (hstfacts k a ha).1
  have hsoundSt : SoundState (process_header s0) (gOf st') st' := by
    intro k a ha
    obtain ⟨_, _, hnul, hfst⟩ := hstfacts k a ha
    have hlg : lookupG (gOf st') k = some a.expansions := by
      rw [lookupG_gOf, ha]
      rfl
    constructor
    · intro t ht
      obtain ⟨hterm, rr, hrr⟩ := hfst t ht
      refine ⟨hterm, rr, Relation.ReflTransGen.single ?_⟩
      have hs := Step.expand ([] : List String) ([] : List String) k a.expansions
        (t :: rr) hlg hrr
      simpa using hs
    · intro hn
      have hmem : [] ∈ a.expansions := hnul.1 hn
      have hs := Step.expand ([] : List String) ([] : List String) k a.expansions
        [] hlg hmem
      exact Relation.ReflTransGen.single (by simpa using hs)
  have hnullSt : NullState (process_header s0) (gOf st') st' := by
    intro k a ha hn
    have hlg : lookupG (gOf st') k = some a.expansions := by
      rw [lookupG_gOf, ha]
      rfl
    exact ⟨a.expansions, [], hlg, (hstfacts k a ha).2.2.1.1 hn, NullStar.nil⟩
  have hleLoop : MapLE st' exps := by
    rw [hloop]
    exact compute_loop_mapLE (process_header s0) _ st' hnd'
  have hgEq : gOf exps = gOf st' := mapLE_gOf hleLoop
  have hndF : (exps.map Prod.fst).Nodup := by
    rw [← hleLoop.keys_eq]
    exact hnd'
  obtain ⟨hSf, hNf⟩ := compute_loop_inv (process_header s0) (gOf st')
    (compute_fuel (process_header s0) st') st' hnd' rfl hneSt hsoundSt hnullSt
  have hstable : Stable (process_header s0) exps := by
    rw [hloop]
    exact compute_loop_fuel_stable (process_header s0) st' hnd'
  subst hhd
  refine ⟨hndF, hstable, nonEmptyExps_of_mapLE hleLoop hneSt, ?_, ?_, ?_⟩
  · rw [hgEq]
    rw [hloop]
    exact hSf
  · rw [hgEq]
    rw [hloop]
    exact hNf
  · intro k b hb
    have hk : mapHasKey st' k = true := by
      rw [mapHasKey_iff_mem_keys, hleLoop.keys_eq, ← mapHasKey_iff_mem_keys]
      exact hasKey_of_lookup_some exps k b hb
    obtain ⟨a, ha⟩ := lookupSym_isSome_of_hasKey st' k hk
    obtain ⟨b', hb', hab⟩ := hleLoop.lookup k a ha
    rw [hb] at hb'
    cases hb'
    rw [← hab.2.1]
    exact (hstfacts k a ha).2.1

/-- C8: the FOLLOW-set update step `update_follow_from_expansion` returns
`False` on every input — it never reports a change — and after the
set-computation phase of a successful `parse_buffer` run every symbol's
`follow` field is the empty set. -/
theorem C8_follow_always_empty :
    (∀ (header : Header) (name : String) (symbol : Symbol) (expansion : List String),
      update_follow_from_expansion header name symbol expansion = false) ∧
    (∀ (buffer : String) (hd : Header) (exps : ExpMap) (u : String),
      parse_buffer buffer = .ok (hd, exps, u) →
      ∀ p ∈ exps, p.2.follow = ∅) := by
  constructor
  · intro header name symbol expansion
    rfl
  · intro buffer hd exps u h p hp
    obtain ⟨hnd, _, _, _, _, hfol⟩ := parse_ok_facts h
    exact hfol p.1 p.2 (mem_lookupSym exps hnd p.1 p.2 hp)

theorem C8_follow_always_empty_witness :
    parse_buffer w8_buffer = .ok (w8_header, w8_exps, "\nx") ∧
    (⟨[["T"]], false, {"T"}, ∅⟩ : Symbol).follow = ∅ :=
  ⟨by decide,
   C8_follow_always_empty.2 w8_buffer w8_header w8_exps "\nx" (by decide)
     ("s", ⟨[["T"]], false, {"T"}, ∅⟩) (by decide)⟩

/-- C5: for every header and symbol mapping (with distinct names, as in a
Python dict) that passes the validation phase, the fixpoint loop of
`compute_sets_for_expansions` terminates: after finitely many full passes,
a full pass reports no change to any symbol. -/
theorem C5_fixpoint_terminates (header : Header) (exps st' : ExpMap)
    (hnd : (exps.map Prod.fst).Nodup)
    (hval : initialise_expansions_state header exps = .ok st') :
    ∃ n, (compute_pass header (pass_iter header n st')).2 = false := by
  have hrel := init_entries_ok_forall₂ header exps exps st' hval
  have hkeys : exps.map Prod.fst = st'.map Prod.fst :=
    forall₂_fst_eq (fun p q hr => hr.1) hrel
  have hnd' : (st'.map Prod.fst).Nodup := by
    rw [← hkeys]
    exact hnd
  obtain ⟨n, hn⟩ := pass_iter_reaches header (first_universe header st')
    (compute_fuel header st') st' hnd' (firstsBounded_first_universe header st')
    (by unfold compute_fuel; omega)
  exact ⟨n, hn⟩

theorem C5_fixpoint_terminates_witness :
    ∃ n, (compute_pass w8_header (pass_iter w8_header n w8_exps)).2 = false :=
  C5_fixpoint_terminates w8_header [("s", ⟨[["T"]], false, ∅, ∅⟩)] w8_exps
    (by decide) (by decide)

/-- C4: a symbol with zero expansions reports nullable; in the table
computed by a successful run, a symbol with at least one empty expansion
is nullable, and a symbol all of whose expansions are non-empty and
consist only of terminals or non-nullable nonterminals is not nullable. -/
theorem C4_nullability :
    (∀ sym : Symbol, sym.expansions = [] → sym.is_nullable = true) ∧
    (∀ (buffer : String) (hd : Header) (exps : ExpMap) (u : String),
      parse_buffer buffer = .ok (hd, exps, u) →
      ∀ name sym, (name, sym) ∈ exps →
        ([] ∈ sym.expansions → sym.is_nullable = true) ∧
        ((∀ exp ∈ sym.expansions, exp ≠ [] ∧ ∀ tok ∈ exp,
            dictHasKey hd.terminals tok = true ∨
            (∃ sym2, lookupSym exps tok = some sym2 ∧ sym2.is_nullable = false)) →
          sym.is_nullable = false)) := by
  constructor
  · intro sym h
    exact is_nullable_of_expansions_nil h
  · intro buffer hd exps u h name sym hmem
    obtain ⟨hnd, hstable, hne, _, hnull, _⟩ := parse_ok_facts h
    have hlook : lookupSym exps name = some sym := mem_lookupSym exps hnd name sym hmem
    constructor
    · intro hempty
      exact stable_empty_expansion_nullable hd exps hnd hstable name sym hlook hempty
    · intro hyp
      rcases Bool.eq_false_or_eq_true sym.is_nullable with htrue | hfalse
      swap
      · exact hfalse
      exfalso
      have hneexp : sym.expansions ≠ [] := hne name sym hlook
      have hlen : sym.expansions.length ≠ 0 :=
        fun hc => hneexp (List.length_eq_zero.1 hc)
      have hnul : sym.nullable = true := by
        unfold Symbol.is_nullable at htrue
        rw [if_neg hlen] at htrue
        exact htrue
      obtain ⟨l, exp, hl, hexp, ns⟩ := hnull name sym hlook hnul
      rw [lookupG_gOf, hlook] at hl
      simp only [Option.map_some'] at hl
      have hleq : sym.expansions = l := Option.some.inj hl
      subst hleq
      obtain ⟨hneE, htoks⟩ := hyp exp hexp
      cases ns with
      | nil => exact hneE rfl
      | consEmpty e rest htf hlge hrest =>
        rcases htoks e (List.mem_cons_self e rest) with hterm | ⟨sym2, hlook2, hf2⟩
        · rw [hterm] at htf
          cases htf
        · rw [lookupG_gOf, hlook2] at hlge
          simp only [Option.map_some'] at hlge
          rw [is_nullable_of_expansions_nil (Option.some.inj hlge)] at hf2
          cases hf2
      | consDerived e rest l' exp' htf hlge hexp' ns' hrest =>
        rcases htoks e (List.mem_cons_self e rest) with hterm | ⟨sym2, hlook2, hf2⟩
        · rw [hterm] at htf
          cases htf
        · have hJ : NullableJ hd (gOf exps) e := ⟨l', exp', hlge, hexp', ns'⟩
          obtain ⟨a2, ha2, ha2n⟩ :=
            stable_nullableJ hd (gOf exps) exps hnd rfl hstable e hJ
          rw [hlook2] at ha2
          cases ha2
          rw [ha2n] at hf2
          cases hf2

theorem C4_nullability_witness :
    parse_buffer w4_buffer = .ok (w4_header, w4_exps, "\nx") ∧
    (⟨[[]], true, ∅, ∅⟩ : Symbol).is_nullable = true :=
  ⟨by decide,
   (C4_nullability.2 w4_buffer w4_header w4_exps "\nx" (by decide)
     "a" ⟨[[]], true, ∅, ∅⟩ (by decide)).1 (by decide)⟩

/-- C1 (counterexample): the grammar `c1_buffer` passes validation, the
terminal `T` can begin a derivation of `s` (expand `s` to `a T`, then
erase the nullable `a`), yet the computed FIRST set of `s` is empty —
because the token scan stops at a terminal that follows a nullable
nonterminal without recording it. So FIRST is not the full set of
terminals that can begin a derivation. -/
theorem C1_first_incomplete_counterexample :
    parse_buffer c1_buffer = .ok (c1_header, c1_exps, "\ncode") ∧
    gOf c1_exps = c1_g ∧
    dictHasKey c1_header.terminals "T" = true ∧
    CanBegin c1_g "s" "T" ∧
    ((lookupSym c1_exps "s").getD Symbol.mkEmpty).first = ∅ := by
  refine ⟨by decide, by decide, by decide, ?_, by decide⟩
  refine ⟨[], ?_⟩
  have h1 : Step c1_g ["s"] ["a", "T"] := by
    have hl : lookupG c1_g "s" = some [["a", "T"]] := by decide
    have hs := Step.expand ([] : List String) ([] : List String) "s" [["a", "T"]]
      ["a", "T"] hl (by decide)
    simpa using hs
  have h2 : Step c1_g ["a", "T"] ["T"] := by
    have hl : lookupG c1_g "a" = some [[]] := by decide
    have hs := Step.expand ([] : List String) (["T"]) "a" [[]]
      ([] : List String) hl (by decide)
    simpa using hs
  exact Relation.ReflTransGen.tail (Relation.ReflTransGen.single h1) h2

/-- C1 (amended): the inclusion that does hold — every element recorded in
a computed FIRST set is a defined terminal that can begin a derivation of
its symbol. The converse inclusion claimed by the specification fails, as
the counterexample shows. -/
theorem C1_first_soundness (buffer : String) (hd : Header) (exps : ExpMap)
    (u : String) (h : parse_buffer buffer = .ok (hd, exps, u)) :
    ∀ name sym, (name, sym) ∈ exps → ∀ t ∈ sym.first,
      dictHasKey hd.terminals t = true ∧ CanBegin (gOf exps) name t := by
  intro name sym hmem t ht
  obtain ⟨hnd, _, _, hsound, _, _⟩ := parse_ok_facts h
  exact (hsound name sym (mem_lookupSym exps hnd name sym hmem)).1 t ht

theorem C1_first_soundness_witness :
    dictHasKey w8_header.terminals "T" = true ∧ CanBegin (gOf w8_exps) "s" "T" :=
  C1_first_soundness w8_buffer w8_header w8_exps "\nx" (by decide)
    "s" ⟨[["T"]], false, {"T"}, ∅⟩ (by decide) "T" (by decide)

end Parsegen
